import Mathlib

/-!
Verification of the BitAds validator scoring / weight-aggregation core.

The Python sources are embedded shallowly: machine floats become `ℚ`,
Python dicts become association lists with last-write-wins lookup,
and fallible code returns `Option`/`Except`.  Components that live in the
external `bitads_v3_core` package (absent from this repository snapshot)
are modelled from the specification and marked as such in their doc
comments.
-/

namespace BitAds

/-! ### Association-list dictionaries (Python `dict` semantics)

A Python dict built by sequential assignment is modelled as an association
list in insertion order; lookup takes the *last* binding of a key. -/

/-- Last-write-wins lookup, mirroring Python `dict` access after sequential
assignments (`d[k] = v`). -/
def dictGet {α β : Type} [DecidableEq α] (l : List (α × β)) (k : α) : Option β :=
  (l.reverse.find? (fun p => decide (p.fst = k))).map (fun p => p.snd)

/-! ### Data model of the score sink (src/core/adapters/score_sink.py) -/

/-- `bitads_v3_core.domain.models.ScoreResult`: per-miner scoring outcome. -/
structure ScoreResult where
  miner_id : String
  base : ℚ
  refund_multiplier : ℚ
  score : ℚ
deriving DecidableEq, Repr

/-- The slice of `bt.Metagraph` the sink reads: `hotkeys` and `uids`,
aligned by index. -/
structure Metagraph where
  hotkeys : List String
  uids : List Nat
deriving DecidableEq, Repr

/-- The sink's collaborators for one published scope, pre-resolved:
`ownerHotkey` is the result of `subtensor.get_subnet_owner_hotkey`
(`none` = the lookup raised), `burn` the value the
`burn_percentage_resolver` returns for the scope. -/
structure SinkCtx where
  mg : Metagraph
  ownerHotkey : Option String
  burn : Option ℚ
deriving Repr

/-- The UID→score dict built by `ValidatorScoreSink.publish`
(src/core/adapters/score_sink.py lines 134-149): an entry whose hotkey is
missing from the metagraph, or whose hotkey index is out of range of
`uids`, is skipped with a warning; assignments happen in score-list
order, so a later entry for the same UID overwrites an earlier one. -/
def scores_by_uid (mg : Metagraph) (scores : List ScoreResult) : List (Nat × ℚ) :=
  scores.filterMap (fun r =>
    match mg.hotkeys.findIdx? (fun h => decide (h = r.miner_id)) with
    | none => none
    | some idx =>
      if idx < mg.uids.length then some (mg.uids.getD idx 0, r.score) else none)

/-- `miner_scores` aligned to `metagraph.uids` (line 154): a miner with no
score entry gets `0.0` (no work = no score). -/
def miner_scores (mg : Metagraph) (scores : List ScoreResult) : List ℚ :=
  mg.uids.map (fun uid => (dictGet (scores_by_uid mg scores) uid).getD 0)

/-- `ValidatorScoreSink._get_owner_index` (lines 54-68). -/
def get_owner_index (ctx : SinkCtx) : Option Nat :=
  match ctx.ownerHotkey with
  | none => none
  | some oh =>
    match ctx.mg.hotkeys.findIdx? (fun h => decide (h = oh)) with
    | none => none
    | some idx => if idx < ctx.mg.uids.length then some idx else none

/-- `ValidatorScoreSink._get_owner_uid` (lines 38-52). -/
def get_owner_uid (ctx : SinkCtx) : Option Nat :=
  (get_owner_index ctx).map (fun idx => ctx.mg.uids.getD idx 0)

/-- `ValidatorScoreSink._set_owner_weight_fallback` (lines 70-79). -/
def set_owner_weight_fallback (ctx : SinkCtx) (ws : List ℚ) : List ℚ :=
  match get_owner_index ctx with
  | none => ws
  | some i => ws.set i 1

/-- `ValidatorScoreSink.set_weights_to_owner_only` (lines 81-106), reduced
to the weight vector it submits; `none` when the owner UID cannot be
resolved (the method then returns `(False, "Owner UID not found")`
without attempting the extrinsic). -/
def set_weights_to_owner_only (ctx : SinkCtx) : Option (List ℚ) :=
  match get_owner_index ctx with
  | none => none
  | some i => some ((List.replicate ctx.mg.uids.length (0 : ℚ)).set i 1)

/-- The owner-only fallback vector: `1.0` at the owner's position, `0`
everywhere else. -/
def owner_only_vector (n oi : Nat) : List ℚ :=
  (List.replicate n (0 : ℚ)).set oi 1

/-- The proportional pool of the burn redistribution: the total pre-burn
score over all entries other than the beneficiary. -/
def burn_pool (uids : List Nat) (ms : List ℚ) (creator_uid : Nat) : ℚ :=
  (((uids.zip ms).filter (fun p => decide (p.fst ≠ creator_uid))).map
    (fun p => p.snd)).sum

/-- Modelled from the spec: `apply_creator_burn` lives in the external
`bitads_v3_core.domain.creator_burn` package, which is absent from this
repository snapshot.  Per spec §4.3 (BurnRedistributor): the beneficiary's
weight is forced to `burn_percentage / 100` and the remaining mass is
distributed over the other entries in proportion to their pre-burn scores,
the beneficiary's own pre-burn score being excluded from the proportional
pool; `burn_percentage ≥ 100` gives the beneficiary everything; a zero
proportional pool triggers the beneficiary-only fallback.  A beneficiary
missing from the UID list is returned as an appended entry (the caller
re-aligns via a dict, src/core/adapters/score_sink.py lines 184-187). -/
def apply_creator_burn (uids : List Nat) (ms : List ℚ) (creator_uid : Nat)
    (burn_percentage : ℚ) : List Nat × List ℚ :=
  let frac := min (burn_percentage / 100) 1
  let pairs := uids.zip ms
  let pool := burn_pool uids ms creator_uid
  if creator_uid ∈ uids then
    if pool = 0 then
      (uids, pairs.map (fun p => if p.fst = creator_uid then (1 : ℚ) else 0))
    else
      (uids, pairs.map (fun p =>
        if p.fst = creator_uid then frac else (1 - frac) * p.snd / pool))
  else
    if pool = 0 then
      (uids ++ [creator_uid], pairs.map (fun _ => (0 : ℚ)) ++ [1])
    else
      (uids ++ [creator_uid], pairs.map (fun p => (1 - frac) * p.snd / pool) ++ [frac])

/-- `ValidatorScoreSink.publish` (src/core/adapters/score_sink.py lines
108-214), reduced to the weight vector it hands to `_set_weights`;
`none` when no extrinsic is attempted.  The `except` clause around the
burn (line 196) and the spec's fail-soft rule for an unresolved
beneficiary both land on `weights_before_burn`, which is how the branch
with `get_owner_uid = none` is modelled. -/
def publish (ctx : SinkCtx) (scores : List ScoreResult) : Option (List ℚ) :=
  if scores = [] ∨ scores.all (fun r => decide (r.score = 0)) then
    set_weights_to_owner_only ctx
  else
    let uids := ctx.mg.uids
    let ms := miner_scores ctx.mg scores
    let total := ms.sum
    let weights_before_burn :=
      if 0 < total then ms.map (fun s => s / total)
      else set_owner_weight_fallback ctx (List.replicate uids.length 0)
    match ctx.burn with
    | some b =>
      if 0 < b then
        match get_owner_uid ctx with
        | none => some weights_before_burn
        | some cu =>
          let fw := apply_creator_burn uids ms cu b
          let weights := uids.map (fun u => (dictGet (fw.fst.zip fw.snd) u).getD 0)
          let weights :=
            if weights.sum = 0 then set_owner_weight_fallback ctx weights else weights
          some weights
      else some weights_before_burn
    | none => some weights_before_burn

/-! ### Campaign aggregation (src/neurons/validator.py, `_process_weights`) -/

/-- `core.domain.campaign.Campaign`: scope, mechanism id, optional
emission split. -/
structure Campaign where
  scope : String
  mech_id : Nat
  emission_split : Option ℚ
deriving DecidableEq, Repr

/-- `raw_splits` (validator.py lines 553-555): the declared positive
emission splits. -/
def raw_splits (cs : List Campaign) : List ℚ :=
  cs.filterMap (fun c =>
    match c.emission_split with
    | some s => if 0 < s then some s else none
    | none => none)

/-- The `campaign_weights` dict (lines 556-566): declared positive splits
normalised by their total; when none is declared, a uniform `1/N` over all
campaigns. -/
def campaign_weights (cs : List Campaign) : List (String × ℚ) :=
  if raw_splits cs ≠ [] then
    cs.filterMap (fun c =>
      match c.emission_split with
      | some s => if 0 < s then some (c.scope, s / (raw_splits cs).sum) else none
      | none => none)
  else
    cs.map (fun c => (c.scope, 1 / (cs.length : ℚ)))

/-- `campaign_weights.get(campaign.scope, 0.0)` (line 674). -/
def emission_weight (cs : List Campaign) (scope : String) : ℚ :=
  (dictGet (campaign_weights cs) scope).getD 0

/-- The aggregation loop of `_process_weights` (lines 569-680): starting
from zeros, each campaign with positive emission weight adds
`emission_weight * w` at every index of its burn-adjusted per-campaign
vector `vec scope`; a campaign with `emission_weight ≤ 0.0` is skipped
(`continue`, line 675-676). -/
def aggregated_scores (cs : List Campaign) (vec : String → List ℚ) (n : Nat) : List ℚ :=
  cs.foldl (fun acc c =>
    if emission_weight cs c.scope ≤ 0 then acc
    else acc.zipWith (fun a w => a + emission_weight cs c.scope * w) (vec c.scope))
    (List.replicate n 0)

/-- `_process_weights` (validator.py lines 696-711) reduced to the final
weight vector it sends towards the chain: zero campaigns or an all-zero
aggregate fall back to `set_weights_to_owner_only`; otherwise the
aggregate is normalised to sum 1 (the `final_scores` handed onwards).
`none` = no vector submitted (owner unresolved in the fallback path). -/
def process_weights_vector (ctx : SinkCtx) (cs : List Campaign)
    (vec : String → List ℚ) : Option (List ℚ) :=
  if cs = [] then set_weights_to_owner_only ctx
  else
    let agg := aggregated_scores cs vec ctx.mg.uids.length
    if agg.sum = 0 then set_weights_to_owner_only ctx
    else some (agg.map (fun s => s / agg.sum))

/-- Spec-side definition, written from the spec's words (§4.4 step 2 and
claim C3) for comparison with the code's fold: the aggregate as the
pointwise sum over campaigns of share times the campaign's vector. -/
def spec_linear_combination (cs : List Campaign) (share : Campaign → ℚ)
    (vec : String → List ℚ) (n : Nat) : List ℚ :=
  (List.range n).map (fun i => (cs.map (fun c => share c * (vec c.scope).getD i 0)).sum)

/-- The aggregation share exactly as claim C3 states it: declared positive
splits are divided by the sum of the declared splits; campaigns without a
positive declared split get `0`; when no campaign declares one, every
campaign gets `1/N`. -/
def claimed_share (cs : List Campaign) (c : Campaign) : ℚ :=
  if raw_splits cs ≠ [] then
    match c.emission_split with
    | some s => if 0 < s then s / (raw_splits cs).sum else 0
    | none => 0
  else 1 / (cs.length : ℚ)

/-! ### P95 provider (src/core/adapters/p95_provider.py) -/

/-- Python dict assignment `d[k] = v`: the new binding supersedes older
ones under the last-write-wins `dictGet`. -/
def dictSet {α β : Type} (l : List (α × β)) (k : α) (v : β) : List (α × β) :=
  l ++ [(k, v)]

/-- `bitads_v3_core.domain.models.Percentiles`. -/
structure Percentiles where
  p95_sales : ℚ
  p95_revenue_usd : ℚ
deriving DecidableEq, Repr

/-- `bitads_v3_core.domain.models.P95Mode`. -/
inductive P95Mode
  | MANUAL
  | AUTO
deriving DecidableEq, Repr

/-- The fields of `bitads_v3_core.domain.models.P95Config` that the
provider reads. -/
structure P95Config where
  mode : P95Mode
  manual_p95_sales : Option ℚ
  manual_p95_revenue_usd : Option ℚ
  ema_alpha : ℚ
deriving DecidableEq, Repr

/-- `bitads_v3_core.domain.models.MinerWindowStats`, modelled from the
spec's WindowStats (§3): per-miner window statistics. -/
structure MinerWindowStats where
  sales : Nat
  revenue_usd : ℚ
  refund_orders : Nat
deriving DecidableEq, Repr

/-- The mutable state of `ValidatorP95Provider` (p95_provider.py lines
13-31). -/
structure ProviderState where
  prev_percentiles : List (String × Percentiles)
  current_percentiles : List (String × Percentiles)
  miner_stats_cache : List (String × List (String × MinerWindowStats))
  mech_scope_to_campaign_scope : List (String × String)
deriving DecidableEq, Repr

/-- The provider's collaborators: `config_source.get_p95_config`,
`miner_stats_source.fetch_window` and the dynamic config's `use_flooring`
flag (`none` = no dynamic config for the scope). -/
structure P95Env where
  get_p95_config : String → P95Config
  fetch_window : String → List (String × MinerWindowStats)
  dyn_use_flooring : String → Option Bool

/-- Ascending insertion into a sorted list. -/
def insertSorted (x : ℚ) : List ℚ → List ℚ
  | [] => [x]
  | y :: ys => if x ≤ y then x :: y :: ys else y :: insertSorted x ys

/-- Ascending insertion sort. -/
def sortAsc (l : List ℚ) : List ℚ := l.foldr insertSorted []

/-- Modelled from the spec (§4.1): the nearest-rank 95th percentile of a
sample; empty input yields `0`. -/
def percentile95 (xs : List ℚ) : ℚ :=
  if xs = [] then 0
  else (sortAsc xs).getD ((95 * xs.length + 99) / 100 - 1) 0

/-- Modelled from the spec: `compute_auto_p95` from
`bitads_v3_core.domain.percentiles` is absent from this repository
snapshot.  Per spec §4.1: take the raw 95th percentiles of sales and
revenue over the window; blend `alpha * raw + (1 - alpha) * prev` when a
prior exists (raw alone on the first iteration); with flooring enabled the
result never drops below the prior, component-wise. -/
def compute_auto_p95 (stats : List MinerWindowStats) (prev : Option Percentiles)
    (alpha : ℚ) (use_flooring : Bool) : Percentiles :=
  let rawS := percentile95 (stats.map (fun s => (s.sales : ℚ)))
  let rawR := percentile95 (stats.map (fun s => s.revenue_usd))
  match prev with
  | none => ⟨rawS, rawR⟩
  | some p =>
    let eS := alpha * rawS + (1 - alpha) * p.p95_sales
    let eR := alpha * rawR + (1 - alpha) * p.p95_revenue_usd
    if use_flooring then ⟨max eS p.p95_sales, max eR p.p95_revenue_usd⟩
    else ⟨eS, eR⟩

/-- `ValidatorP95Provider.get_effective_p95` (p95_provider.py lines
33-85).  The third component instruments the call: the scopes actually
fetched from the miner-stats source. -/
def get_effective_p95 (env : P95Env) (scope : String) (st : ProviderState) :
    Percentiles × ProviderState × List String :=
  match dictGet st.current_percentiles scope with
  | some p => (p, st, [])
  | none =>
    let cfg := env.get_p95_config scope
    match cfg.mode with
    | P95Mode.MANUAL =>
      let p : Percentiles :=
        ⟨cfg.manual_p95_sales.getD 0, cfg.manual_p95_revenue_usd.getD 0⟩
      (p, { st with current_percentiles := dictSet st.current_percentiles scope p }, [])
    | P95Mode.AUTO =>
      let mscope := (dictGet st.mech_scope_to_campaign_scope scope).getD scope
      let uf := (env.dyn_use_flooring scope).getD false
      match dictGet st.miner_stats_cache mscope with
      | some l =>
        let p := compute_auto_p95 (l.map (fun q => q.snd))
          (dictGet st.prev_percentiles scope) cfg.ema_alpha uf
        (p, { st with current_percentiles := dictSet st.current_percentiles scope p }, [])
      | none =>
        let l := env.fetch_window mscope
        let p := compute_auto_p95 (l.map (fun q => q.snd))
          (dictGet st.prev_percentiles scope) cfg.ema_alpha uf
        (p,
          { st with
            miner_stats_cache := dictSet st.miner_stats_cache mscope l
            current_percentiles := dictSet st.current_percentiles scope p },
          [mscope])

/-- `ValidatorP95Provider.update_percentiles` (lines 118-123): the
current-iteration map becomes the previous map; the current map and the
miner-stats cache are cleared. -/
def update_percentiles (st : ProviderState) : ProviderState :=
  { st with
    prev_percentiles := st.current_percentiles
    current_percentiles := []
    miner_stats_cache := [] }

/-! ### The epoch step (`_sync_and_process`) and the publish call mismatch -/

/-- The parameters accepted by `ValidatorScoreSink.publish`
(src/core/adapters/score_sink.py line 108). -/
def publish_params : List String := ["self", "scores", "scope", "miner_stats_scope"]

/-- The keyword arguments `_process_weights` passes in its final publish
call (src/neurons/validator.py lines 733-738). -/
def process_weights_publish_kwargs : List String := ["miner_stats_scope", "apply_burn"]

/-- Python call semantics for keyword arguments: a keyword not among the
callee's parameters raises `TypeError`. -/
def kwargs_accepted (params kwargs : List String) : Bool :=
  kwargs.all (fun k => decide (k ∈ params))

/-- One run of `_process_weights` (validator.py lines 527-742) abstracted
to its control flow around the final submission: with no campaigns, or an
all-zero aggregate, the method returns after the owner-only call;
otherwise it reaches `score_sink.publish(aggregated_results, ...,
apply_burn=False)` (lines 733-738), which raises `TypeError` whenever
`publish` does not accept one of the keywords. -/
def process_weights_run (ctx : SinkCtx) (cs : List Campaign)
    (vec : String → List ℚ) : Except String Unit :=
  if cs = [] then Except.ok ()
  else if (aggregated_scores cs vec ctx.mg.uids.length).sum = 0 then Except.ok ()
  else if kwargs_accepted publish_params process_weights_publish_kwargs then Except.ok ()
  else Except.error "TypeError: publish() got an unexpected keyword argument"

/-- `Validator._sync_and_process` (validator.py lines 516-525): when the
epoch is due (`last_update >= tempo`), `_process_weights()` runs and then
`p95_provider.update_percentiles()`.  Returns how many times
`update_percentiles` was invoked, and the propagated exception if any. -/
def sync_and_process_updates (last_update tempo : Nat)
    (run : Except String Unit) : Nat × Option String :=
  if tempo ≤ last_update then
    match run with
    | Except.ok _ => (1, none)
    | Except.error e => (0, some e)
  else (0, none)

/-! ### The `_set_weights` retry loop (src/core/adapters/score_sink.py) -/

/-- The retry loop of `ValidatorScoreSink._set_weights` (lines 238-295):
`retries = 0; success = False; while retries < max_retries and success is
False: success, message = extrinsic(...); retries += 1`.  `attempt i` is
the outcome of the `i`-th extrinsic call; the result carries the final
`(success, message)` and the number of extrinsic calls made. -/
def set_weights_loop (attempt : Nat → Bool × String) (i : Nat) (msg : String) :
    Nat → Bool × String × Nat
  | 0 => (false, msg, 0)
  | fuel + 1 =>
    let r := attempt i
    if r.fst then (true, r.snd, 1)
    else
      let rest := set_weights_loop attempt (i + 1) r.snd fuel
      (rest.fst, rest.snd.fst, rest.snd.snd + 1)

/-- `ValidatorScoreSink._set_weights` (lines 217-295) reduced to its
attempt accounting: an unregistered hotkey returns without any extrinsic
call; otherwise the retry loop runs with `max_retries` (default 5).  Both
the commit-reveal and the plain branch have the same loop structure. -/
def set_weights_attempts (registered : Bool) (max_retries : Nat)
    (attempt : Nat → Bool × String) : Bool × String × Nat :=
  if registered then
    set_weights_loop attempt 0
      "No attempt made. Perhaps it is too soon to commit weights!" max_retries
  else (false, "Hotkey not registered in subnet", 0)

/-! ### Concrete fixture mirroring src/tests/test_score_sink.py -/

/-- The metagraph of the unit-test fixture: validator, three miners, and
the subnet creator at index 4 with UID 99. -/
def test_mg : Metagraph :=
  { hotkeys := ["VALIDATOR", "MINER1", "MINER2", "MINER3", "CREATOR"]
    uids := [0, 1, 2, 3, 99] }

/-- The sink context of the fixture, parameterised by the burn value. -/
def test_ctx (b : Option ℚ) : SinkCtx :=
  { mg := test_mg, ownerHotkey := some "CREATOR", burn := b }

/-- Scores 0.5 / 0.3 / 0.2 for the three miners. -/
def test_scores : List ScoreResult :=
  [⟨"MINER1", 1/2, 1, 1/2⟩, ⟨"MINER2", 3/10, 1, 3/10⟩, ⟨"MINER3", 1/5, 1, 1/5⟩]

/-- Scenario D of the spec (`test_burn_with_creator_in_scores`): the
creator is already present with pre-burn score 0.2. -/
def test_scores_with_creator : List ScoreResult :=
  [⟨"MINER1", 1/2, 1, 1/2⟩, ⟨"MINER2", 3/10, 1, 3/10⟩, ⟨"CREATOR", 1/5, 1, 1/5⟩]

/-- Two campaigns with declared emission splits 70 and 30 (scenario F of
the spec). -/
def test_campaigns : List Campaign :=
  [⟨"campA", 1, some 70⟩, ⟨"campB", 1, some 30⟩]

/-- Per-campaign burn-adjusted weight vectors for the fixture; each is
aligned to the five fixture UIDs and sums to 1. -/
def test_vec (s : String) : List ℚ :=
  if s = "campA" then [1, 0, 0, 0, 0] else [0, 1, 0, 0, 0]

/-- A score list containing an entry whose hotkey is not in the fixture
metagraph. -/
def test_scores_unknown : List ScoreResult :=
  [⟨"UNKNOWN", 1, 1, 1⟩, ⟨"MINER1", 1/2, 1, 1/2⟩]

/-- A single campaign without a declared emission split (uniform share). -/
def test_campaign_nosplit : List Campaign := [⟨"campZ", 1, none⟩]

/-- A per-campaign vector of integral weights for the fixture. -/
def test_vec_unit : String → List ℚ := fun _ => [1, 0, 0, 0, 0]

/-- A provider environment whose config source answers MANUAL mode with
the repository's default ceilings (60 sales / 4000 USD) for every scope,
with an empty miner-stats source. -/
def test_p95_env : P95Env :=
  { get_p95_config := fun _ => ⟨P95Mode.MANUAL, some 60, some 4000, 1/10⟩
    fetch_window := fun _ => []
    dyn_use_flooring := fun _ => none }

/-- The same environment with a non-trivial miner-stats source and a
dynamic flooring flag; MANUAL mode must not read either. -/
def test_p95_env_with_stats : P95Env :=
  { get_p95_config := test_p95_env.get_p95_config
    fetch_window := fun _ => [("MINER1", ⟨7, 300, 1⟩)]
    dyn_use_flooring := fun _ => some true }

/-- A fresh provider state (first iteration, nothing cached). -/
def test_provider_state : ProviderState := ⟨[], [], [], []⟩

/-! ### compute_scores_for_campaign (src/neurons/validator.py lines 367-448) -/

/-- The zero-score entry built for every hotkey when no miner-stats exist
(validator.py lines 391-394). -/
def zero_score_entry (h : String) : ScoreResult := ⟨h, 0, 1, 0⟩

/-- The minimum-reward entry for a pending-only miner.  The numeric value
of `PENDING_MINER_MIN_SCORE` (imported from `core.constants`) is not part
of this repository snapshot, so it stays a parameter `m`. -/
def pending_entry (m : ℚ) (h : String) : ScoreResult := ⟨h, m, 1, m⟩

/-- Modelled from the spec (§4.2): `ScoreCalculator.score_many` from
`bitads_v3_core.app.scoring` is absent from this snapshot; per the spec it
applies the per-miner scoring to every stats entry and returns one
ScoreResult per entry, carrying that miner's id, with
`score = base * refund_multiplier`.  The per-miner numeric computation is
abstracted as `f`. -/
def score_many (f : MinerWindowStats → ℚ × ℚ)
    (stats : List (String × MinerWindowStats)) : List ScoreResult :=
  stats.map (fun q =>
    ⟨q.fst, (f q.snd).fst, (f q.snd).snd, (f q.snd).fst * (f q.snd).snd⟩)

/-- The pending-miner pass of the no-stats branch (validator.py lines
395-404): for each pending hotkey present in the metagraph, the entry at
the hotkey's index is replaced by the minimum-score entry. -/
def assign_pending (hotkeys : List String) (m : ℚ) (pending : List String)
    (acc : List ScoreResult) : List ScoreResult :=
  pending.foldl (fun acc h =>
    if h ∈ hotkeys then
      match hotkeys.findIdx? (fun x => decide (x = h)) with
      | some idx => acc.set idx (pending_entry m h)
      | none => acc
    else acc) acc

/-- The pending-miner pass of the stats branch (validator.py lines
422-437): a minimum-score entry is appended for each pending hotkey that
has no score yet and is in the metagraph; the set `miners_with_score` is
threaded as the second component. -/
def append_pending (hotkeys : List String) (m : ℚ) (pending : List String)
    (acc : List ScoreResult × List String) : List ScoreResult × List String :=
  pending.foldl (fun acc h =>
    if h ∉ acc.snd ∧ h ∈ hotkeys then
      (acc.fst ++ [pending_entry m h], h :: acc.snd)
    else acc) acc

/-- `Validator.compute_scores_for_campaign` (validator.py lines 367-448)
as a function of the metagraph hotkeys, the fetched miner-stats list, the
pending-miners list, the abstracted per-miner scoring `f`, and the
minimum pending score `m`. -/
def compute_scores_for_campaign (hotkeys : List String)
    (f : MinerWindowStats → ℚ × ℚ) (stats : List (String × MinerWindowStats))
    (pending : List String) (m : ℚ) : List ScoreResult :=
  if stats = [] then
    assign_pending hotkeys m pending (hotkeys.map zero_score_entry)
  else
    (append_pending hotkeys m pending
      (score_many f stats, (score_many f stats).map ScoreResult.miner_id)).fst

/-! ### Facts about association-list lookup -/

theorem dictGet_nil {α β : Type} [DecidableEq α] (k : α) :
    dictGet ([] : List (α × β)) k = none := rfl

theorem dictGet_append {α β : Type} [DecidableEq α] (l₁ l₂ : List (α × β)) (k : α) :
    dictGet (l₁ ++ l₂) k = (dictGet l₂ k).orElse (fun _ => dictGet l₁ k) := by
  unfold dictGet
  rw [List.reverse_append, List.find?_append]
  cases hf : List.find? (fun p => decide (p.fst = k)) l₂.reverse with
  | none => simp [hf]
  | some p => simp [hf]

theorem dictGet_mem {α β : Type} [DecidableEq α] {l : List (α × β)} {k : α} {v : β}
    (h : dictGet l k = some v) : (k, v) ∈ l := by
  unfold dictGet at h
  cases hf : List.find? (fun p => decide (p.fst = k)) l.reverse with
  | none => rw [hf] at h; simp at h
  | some p =>
    rw [hf] at h
    simp only [Option.map_some'] at h
    have hmem := List.mem_of_find?_eq_some hf
    have hp := List.find?_some hf
    simp only [decide_eq_true_eq] at hp
    rw [List.mem_reverse] at hmem
    have hpv : p = (k, v) := by
      cases p with
      | mk a b =>
        simp only at hp h
        rw [hp, Option.some_inj.mp h]
    rw [hpv] at hmem
    exact hmem

/-- When the keys are distinct, any binding present in the list is what
lookup returns. -/
theorem dictGet_eq_of_nodup {α β : Type} [DecidableEq α] {l : List (α × β)} {k : α} {v : β}
    (hnd : (l.map Prod.fst).Nodup) (hmem : (k, v) ∈ l) : dictGet l k = some v := by
  induction l with
  | nil => simp at hmem
  | cons p rest ih =>
    simp only [List.map_cons, List.nodup_cons] at hnd
    rcases List.mem_cons.mp hmem with h1 | h1
    · -- the binding is the head; no later binding can shadow it
      have hrest : dictGet rest k = none := by
        unfold dictGet
        rw [List.find?_eq_none.mpr]
        · rfl
        · intro q hq
          simp only [decide_eq_true_eq]
          intro hqk
          apply hnd.1
          have hq2 : q.fst ∈ rest.map Prod.fst :=
            List.mem_map_of_mem Prod.fst (List.mem_reverse.mp hq)
          rw [hqk] at hq2
          rw [← h1]
          exact hq2
      show dictGet ([p] ++ rest) k = some v
      rw [dictGet_append, hrest]
      simp [dictGet, ← h1]
    · show dictGet ([p] ++ rest) k = some v
      rw [dictGet_append, ih hnd.2 h1]
      rfl


/-! ### Basic facts about the sink's weight construction -/

theorem length_miner_scores (mg : Metagraph) (scores : List ScoreResult) :
    (miner_scores mg scores).length = mg.uids.length := by
  simp [miner_scores]

theorem mem_scores_by_uid {mg : Metagraph} {scores : List ScoreResult} {u : Nat} {v : ℚ}
    (h : (u, v) ∈ scores_by_uid mg scores) :
    ∃ r ∈ scores, ∃ idx,
      mg.hotkeys.findIdx? (fun hk => decide (hk = r.miner_id)) = some idx ∧
      idx < mg.uids.length ∧ u = mg.uids.getD idx 0 ∧ v = r.score := by
  unfold scores_by_uid at h
  rcases List.mem_filterMap.mp h with ⟨r, hr, hfr⟩
  refine ⟨r, hr, ?_⟩
  cases hidx : mg.hotkeys.findIdx? (fun hk => decide (hk = r.miner_id)) with
  | none => rw [hidx] at hfr; simp at hfr
  | some idx =>
    rw [hidx] at hfr
    by_cases hlt : idx < mg.uids.length
    · simp only [hlt, if_true] at hfr
      have h2 := Option.some_inj.mp hfr
      exact ⟨idx, rfl, hlt, (congrArg Prod.fst h2).symm, (congrArg Prod.snd h2).symm⟩
    · simp [hlt] at hfr

theorem scores_by_uid_entry {mg : Metagraph} {scores : List ScoreResult} {r : ScoreResult}
    (hr : r ∈ scores) {idx : Nat}
    (hidx : mg.hotkeys.findIdx? (fun hk => decide (hk = r.miner_id)) = some idx)
    (hlt : idx < mg.uids.length) :
    (mg.uids.getD idx 0, r.score) ∈ scores_by_uid mg scores := by
  unfold scores_by_uid
  apply List.mem_filterMap.mpr
  exact ⟨r, hr, by rw [hidx]; simp [hlt]⟩

theorem findIdx?_eq_some_getD {l : List String} {x : String} {i : Nat} (d : String)
    (h : l.findIdx? (fun hk => decide (hk = x)) = some i) :
    i < l.length ∧ l.getD i d = x := by
  rcases List.findIdx?_eq_some_iff_getElem.mp h with ⟨hlt, hp, _⟩
  refine ⟨hlt, ?_⟩
  rw [List.getD_eq_getElem l d hlt]
  simpa using hp

theorem nodup_getD_inj {l : List Nat} (h : l.Nodup) {i j : Nat}
    (hi : i < l.length) (hj : j < l.length) (he : l.getD i 0 = l.getD j 0) : i = j := by
  rw [List.getD_eq_getElem l 0 hi, List.getD_eq_getElem l 0 hj] at he
  exact (List.Nodup.getElem_inj_iff h).mp he

theorem scores_by_uid_keys_nodup {mg : Metagraph} {scores : List ScoreResult}
    (hu : mg.uids.Nodup) (hids : (scores.map ScoreResult.miner_id).Nodup) :
    ((scores_by_uid mg scores).map Prod.fst).Nodup := by
  induction scores with
  | nil => simp [scores_by_uid]
  | cons r rest ih =>
    simp only [List.map_cons, List.nodup_cons] at hids
    unfold scores_by_uid
    rw [List.filterMap_cons]
    cases hidx : mg.hotkeys.findIdx? (fun hk => decide (hk = r.miner_id)) with
    | none =>
      simp only [hidx]
      exact ih hids.2
    | some idx =>
      simp only [hidx]
      by_cases hlt : idx < mg.uids.length
      · simp only [hlt, if_true, List.map_cons, List.nodup_cons]
        refine ⟨?_, ih hids.2⟩
        intro hmem
        rcases List.mem_map.mp hmem with ⟨⟨u, v⟩, hmem2, hkey⟩
        rcases mem_scores_by_uid hmem2 with ⟨r2, hr2, idx2, hidx2, hlt2, hu2, _⟩
        simp only at hkey
        have hij : idx = idx2 := nodup_getD_inj hu hlt hlt2 (by rw [← hkey]; exact hu2)
        have h1 := (findIdx?_eq_some_getD "" hidx).2
        have h2 := (findIdx?_eq_some_getD "" hidx2).2
        rw [hij] at h1
        apply hids.1
        rw [h1.symm.trans h2]
        exact List.mem_map_of_mem ScoreResult.miner_id hr2
      · simp only [hlt, if_false]
        exact ih hids.2

theorem dictGet_scores_by_uid {mg : Metagraph} {scores : List ScoreResult} {r : ScoreResult}
    (hu : mg.uids.Nodup) (hids : (scores.map ScoreResult.miner_id).Nodup)
    (hr : r ∈ scores) {idx : Nat}
    (hidx : mg.hotkeys.findIdx? (fun hk => decide (hk = r.miner_id)) = some idx)
    (hlt : idx < mg.uids.length) :
    dictGet (scores_by_uid mg scores) (mg.uids.getD idx 0) = some r.score :=
  dictGet_eq_of_nodup (scores_by_uid_keys_nodup hu hids) (scores_by_uid_entry hr hidx hlt)

theorem miner_scores_getD {mg : Metagraph} (scores : List ScoreResult) {i : Nat}
    (hi : i < mg.uids.length) :
    (miner_scores mg scores).getD i 0 =
      (dictGet (scores_by_uid mg scores) (mg.uids.getD i 0)).getD 0 := by
  unfold miner_scores
  rw [List.getD_eq_getElem _ 0 (by simpa using hi), List.getElem_map,
    List.getD_eq_getElem _ 0 hi]

theorem miner_scores_nonneg {mg : Metagraph} {scores : List ScoreResult}
    (h : ∀ r ∈ scores, 0 ≤ r.score) : ∀ x ∈ miner_scores mg scores, 0 ≤ x := by
  intro x hx
  unfold miner_scores at hx
  rcases List.mem_map.mp hx with ⟨u, _, hux⟩
  cases hd : dictGet (scores_by_uid mg scores) u with
  | none => rw [hd] at hux; simp at hux; rw [← hux]
  | some v =>
    rw [hd] at hux
    simp only [Option.getD_some] at hux
    rcases mem_scores_by_uid (dictGet_mem hd) with ⟨r, hr, _, _, _, _, hv⟩
    rw [← hux, hv]
    exact h r hr

/-! ### Sum lemmas -/

theorem sum_map_div (l : List ℚ) (c : ℚ) : (l.map (fun x => x / c)).sum = l.sum / c := by
  induction l with
  | nil => simp
  | cons a t ih => simp [ih, add_div]

theorem sum_replicate_set : ∀ (n i : Nat), i < n →
    ((List.replicate n (0 : ℚ)).set i 1).sum = 1 := by
  intro n
  induction n with
  | zero => intro i h; omega
  | succ m ih =>
    intro i h
    cases i with
    | zero => simp [List.replicate_succ]
    | succ j =>
      rw [List.replicate_succ]
      simp only [List.set_cons_succ, List.sum_cons]
      rw [ih j (by omega)]
      simp

theorem mem_replicate_set_nonneg {n i : Nat} {x : ℚ}
    (h : x ∈ (List.replicate n (0 : ℚ)).set i 1) : 0 ≤ x := by
  rcases List.mem_or_eq_of_mem_set h with h1 | h1
  · rw [List.eq_of_mem_replicate h1]
  · rw [h1]; norm_num

/-- Summing a function that special-cases a single key: when the keys are
distinct and the key occurs, the sum splits into the special value plus
the sum of the default over the filtered rest. -/
theorem sum_map_ite_key (l : List (Nat × ℚ)) (cu : Nat) (c : ℚ) (g : Nat × ℚ → ℚ)
    (hnd : (l.map Prod.fst).Nodup) (hcu : cu ∈ l.map Prod.fst) :
    (l.map (fun p => if p.fst = cu then c else g p)).sum =
      c + ((l.filter (fun p => decide (p.fst ≠ cu))).map g).sum := by
  induction l with
  | nil => simp at hcu
  | cons p t ih =>
    simp only [List.map_cons, List.nodup_cons] at hnd
    simp only [List.map_cons, List.mem_cons] at hcu
    by_cases hp : p.fst = cu
    · have htail : ∀ q ∈ t, q.fst ≠ cu := by
        intro q hq hqc
        exact hnd.1 (hp ▸ hqc ▸ List.mem_map_of_mem Prod.fst hq)
      rw [List.map_cons, List.sum_cons, if_pos hp]
      have hmapeq : t.map (fun p => if p.fst = cu then c else g p) = t.map g :=
        List.map_congr_left (fun q hq => if_neg (htail q hq))
      rw [hmapeq, List.filter_cons_of_neg (by simp [hp]),
        List.filter_eq_self.mpr (fun q hq => by simpa using htail q hq)]
    · have hcu2 : cu ∈ t.map Prod.fst := by
        rcases hcu with h1 | h1
        · exact absurd h1.symm hp
        · exact h1
      rw [List.map_cons, List.sum_cons, if_neg hp, ih hnd.2 hcu2,
        List.filter_cons_of_pos (by simpa using hp), List.map_cons, List.sum_cons]
      ring

/-- Dropping a single distinguished key from a keyed sum subtracts its value. -/
theorem sum_filter_ne_key (l : List (Nat × ℚ)) (cu : Nat) (v : ℚ)
    (hnd : (l.map Prod.fst).Nodup) (hmem : (cu, v) ∈ l) :
    ((l.filter (fun p => decide (p.fst ≠ cu))).map (fun p => p.snd)).sum =
      (l.map (fun p => p.snd)).sum - v := by
  induction l with
  | nil => simp at hmem
  | cons p t ih =>
    simp only [List.map_cons, List.nodup_cons] at hnd
    rcases List.mem_cons.mp hmem with h1 | h1
    · have hp : p.fst = cu := by rw [← h1]
      have hv : p.snd = v := by rw [← h1]
      have htail : ∀ q ∈ t, q.fst ≠ cu := by
        intro q hq hqc
        exact hnd.1 (hp ▸ hqc ▸ List.mem_map_of_mem Prod.fst hq)
      rw [List.filter_cons_of_neg (by simp [hp]),
        List.filter_eq_self.mpr (fun q hq => by simpa using htail q hq),
        List.map_cons, List.sum_cons, hv]
      ring
    · have hp : p.fst ≠ cu := by
        intro hpc
        exact hnd.1 (hpc ▸ List.mem_map_of_mem Prod.fst h1)
      rw [List.filter_cons_of_pos (by simpa using hp), List.map_cons, List.sum_cons,
        ih hnd.2 h1, List.map_cons, List.sum_cons]
      ring

/-- Re-aligning a keyed vector over its own (distinct) keys is the identity. -/
theorem map_dictGet_zip {uids : List Nat} {ws : List ℚ}
    (hnd : uids.Nodup) (hlen : ws.length = uids.length) :
    uids.map (fun u => (dictGet (uids.zip ws) u).getD 0) = ws := by
  apply List.ext_getElem (by simp [hlen])
  intro i h1 h2
  rw [List.getElem_map]
  have hkey : ((uids.zip ws).map Prod.fst).Nodup := by
    rw [List.map_fst_zip uids ws (by omega)]
    exact hnd
  have hiu : i < uids.length := by simpa using h1
  have hizp : i < (uids.zip ws).length := by simp [List.length_zip]; omega
  have hmem : (uids[i], ws[i]) ∈ uids.zip ws := by
    have hz : (uids.zip ws)[i] = (uids[i], ws[i]) := List.getElem_zip
    rw [← hz]
    exact List.getElem_mem _
  rw [dictGet_eq_of_nodup hkey hmem]
  rfl

/-! ### Properties of the burn redistribution -/

theorem burn_pool_nonneg {uids : List Nat} {ms : List ℚ} (cu : Nat)
    (hnn : ∀ x ∈ ms, 0 ≤ x) : 0 ≤ burn_pool uids ms cu := by
  apply List.sum_nonneg
  intro x hx
  rcases List.mem_map.mp hx with ⟨p, hp, hpx⟩
  obtain ⟨a, c⟩ := p
  rw [← hpx]
  exact hnn c (List.of_mem_zip (List.mem_filter.mp hp).1).2

theorem burn_pool_eq_sum_sub {uids : List Nat} {ms : List ℚ} {cu : Nat} {v : ℚ}
    (hnd : uids.Nodup) (hlen : ms.length = uids.length)
    (hmem : (cu, v) ∈ uids.zip ms) :
    burn_pool uids ms cu = ms.sum - v := by
  unfold burn_pool
  rw [sum_filter_ne_key _ cu v
    (by rw [List.map_fst_zip uids ms (le_of_eq hlen.symm)]; exact hnd) hmem]
  congr 1
  calc ((uids.zip ms).map (fun p => p.snd)).sum
      = ((uids.zip ms).map Prod.snd).sum := rfl
    _ = ms.sum := by rw [List.map_snd_zip uids ms (le_of_eq hlen)]

theorem burn_pool_pos {uids : List Nat} {ms : List ℚ} {cu : Nat} {j : Nat}
    (hnn : ∀ x ∈ ms, 0 ≤ x) (hlen : ms.length = uids.length)
    (hj : j < uids.length) (hjne : uids.getD j 0 ≠ cu) (hpos : 0 < ms.getD j 0) :
    0 < burn_pool uids ms cu := by
  have hjm : j < ms.length := by omega
  have hjz : j < (uids.zip ms).length := by simp [List.length_zip]; omega
  have hmemz : (uids[j], ms[j]) ∈ uids.zip ms := by
    have hz : (uids.zip ms)[j] = (uids[j], ms[j]) := List.getElem_zip
    rw [← hz]
    exact List.getElem_mem _
  have hmemf : (uids[j], ms[j]) ∈
      (uids.zip ms).filter (fun p => decide (p.fst ≠ cu)) := by
    apply List.mem_filter.mpr
    refine ⟨hmemz, ?_⟩
    simp only [decide_eq_true_eq]
    rw [← List.getD_eq_getElem uids 0 hj]
    exact hjne
  have hmem2 : ms[j] ∈
      (((uids.zip ms).filter (fun p => decide (p.fst ≠ cu))).map (fun p => p.snd)) :=
    List.mem_map_of_mem _ hmemf
  have hle := List.single_le_sum ?_ _ hmem2
  · calc (0 : ℚ) < ms.getD j 0 := hpos
      _ = ms[j] := List.getD_eq_getElem ms 0 hjm
      _ ≤ burn_pool uids ms cu := hle
  · intro x hx
    rcases List.mem_map.mp hx with ⟨p, hp, hpx⟩
    obtain ⟨a, c⟩ := p
    rw [← hpx]
    exact hnn c (List.of_mem_zip (List.mem_filter.mp hp).1).2

theorem apply_creator_burn_fst {uids : List Nat} {ms : List ℚ} {cu : Nat} {b : ℚ}
    (hcu : cu ∈ uids) : (apply_creator_burn uids ms cu b).fst = uids := by
  unfold apply_creator_burn
  simp only [if_pos hcu]
  split <;> rfl

theorem apply_creator_burn_snd_of_mem {uids : List Nat} {ms : List ℚ} {cu : Nat} {b : ℚ}
    (hcu : cu ∈ uids) :
    (apply_creator_burn uids ms cu b).snd =
      if burn_pool uids ms cu = 0 then
        (uids.zip ms).map (fun p => if p.fst = cu then (1 : ℚ) else 0)
      else
        (uids.zip ms).map (fun p =>
          if p.fst = cu then min (b / 100) 1
          else (1 - min (b / 100) 1) * p.snd / burn_pool uids ms cu) := by
  unfold apply_creator_burn
  simp only [if_pos hcu]
  split <;> simp_all

theorem apply_creator_burn_snd_length {uids : List Nat} {ms : List ℚ} {cu : Nat} {b : ℚ}
    (hcu : cu ∈ uids) (hlen : ms.length = uids.length) :
    (apply_creator_burn uids ms cu b).snd.length = uids.length := by
  rw [apply_creator_burn_snd_of_mem hcu]
  split <;> simp [List.length_zip, hlen]

theorem apply_creator_burn_sum {uids : List Nat} {ms : List ℚ} {cu : Nat} {b : ℚ}
    (hnd : uids.Nodup) (hlen : ms.length = uids.length) (hcu : cu ∈ uids) :
    (apply_creator_burn uids ms cu b).snd.sum = 1 := by
  have hkeys : ((uids.zip ms).map Prod.fst).Nodup := by
    rw [List.map_fst_zip uids ms (le_of_eq hlen.symm)]; exact hnd
  have hcuk : cu ∈ (uids.zip ms).map Prod.fst := by
    rw [List.map_fst_zip uids ms (le_of_eq hlen.symm)]; exact hcu
  rw [apply_creator_burn_snd_of_mem hcu]
  split
  case isTrue h0 =>
    rw [sum_map_ite_key _ cu 1 (fun _ => 0) hkeys hcuk]
    simp
  case isFalse h0 =>
    rw [sum_map_ite_key _ cu (min (b / 100) 1)
      (fun p => (1 - min (b / 100) 1) * p.snd / burn_pool uids ms cu) hkeys hcuk]
    have hmapeq : ((uids.zip ms).filter (fun p => decide (p.fst ≠ cu))).map
        (fun p => (1 - min (b / 100) 1) * p.snd / burn_pool uids ms cu) =
        ((uids.zip ms).filter (fun p => decide (p.fst ≠ cu))).map
        (fun p => ((1 - min (b / 100) 1) / burn_pool uids ms cu) * p.snd) :=
      List.map_congr_left (fun q _ => by ring)
    rw [hmapeq, List.sum_map_mul_left]
    have hpool : (((uids.zip ms).filter (fun p => decide (p.fst ≠ cu))).map
        (fun p => p.snd)).sum = burn_pool uids ms cu := rfl
    rw [hpool, div_mul_cancel₀ _ h0]
    ring

theorem apply_creator_burn_nonneg {uids : List Nat} {ms : List ℚ} {cu : Nat} {b : ℚ}
    (hnn : ∀ x ∈ ms, 0 ≤ x) (hb : 0 ≤ b) (hcu : cu ∈ uids) :
    ∀ x ∈ (apply_creator_burn uids ms cu b).snd, 0 ≤ x := by
  intro x hx
  rw [apply_creator_burn_snd_of_mem hcu] at hx
  have hfrac0 : 0 ≤ min (b / 100) 1 :=
    le_min (div_nonneg hb (by norm_num)) zero_le_one
  have hfrac1 : min (b / 100) 1 ≤ 1 := min_le_right _ _
  split at hx
  case isTrue h0 =>
    rcases List.mem_map.mp hx with ⟨p, _, hpx⟩
    rw [← hpx]
    split <;> norm_num
  case isFalse h0 =>
    rcases List.mem_map.mp hx with ⟨p, hp, hpx⟩
    rw [← hpx]
    split
    · exact hfrac0
    · have hpool : 0 < burn_pool uids ms cu :=
        lt_of_le_of_ne (burn_pool_nonneg cu hnn) (Ne.symm h0)
      have hsnd : 0 ≤ p.snd := by
        obtain ⟨a, c⟩ := p
        exact hnn c (List.of_mem_zip hp).2
      exact div_nonneg (mul_nonneg (by linarith) hsnd) hpool.le

theorem apply_creator_burn_getD_owner {uids : List Nat} {ms : List ℚ} {cu : Nat} {b : ℚ}
    {i : Nat} (hlen : ms.length = uids.length)
    (hi : i < uids.length) (hcui : uids.getD i 0 = cu)
    (hpool : burn_pool uids ms cu ≠ 0) :
    (apply_creator_burn uids ms cu b).snd.getD i 0 = min (b / 100) 1 := by
  have hcu : cu ∈ uids := by
    rw [← hcui, List.getD_eq_getElem uids 0 hi]
    exact List.getElem_mem _
  rw [apply_creator_burn_snd_of_mem hcu, if_neg hpool]
  have hiz : i < ((uids.zip ms).map (fun p =>
      if p.fst = cu then min (b / 100) 1
      else (1 - min (b / 100) 1) * p.snd / burn_pool uids ms cu)).length := by
    simp [List.length_zip]; omega
  rw [List.getD_eq_getElem _ 0 hiz, List.getElem_map]
  have him : i < ms.length := by omega
  have hizp : i < (uids.zip ms).length := by simp [List.length_zip]; omega
  have hz : (uids.zip ms)[i] = (uids[i], ms[i]) := List.getElem_zip
  rw [hz]
  simp only
  rw [if_pos (by rw [← List.getD_eq_getElem uids 0 hi]; exact hcui)]

theorem apply_creator_burn_getD_other {uids : List Nat} {ms : List ℚ} {cu : Nat} {b : ℚ}
    {i : Nat} (hlen : ms.length = uids.length) (hcu : cu ∈ uids)
    (hi : i < uids.length) (hne : uids.getD i 0 ≠ cu)
    (hpool : burn_pool uids ms cu ≠ 0) :
    (apply_creator_burn uids ms cu b).snd.getD i 0 =
      (1 - min (b / 100) 1) * ms.getD i 0 / burn_pool uids ms cu := by
  rw [apply_creator_burn_snd_of_mem hcu, if_neg hpool]
  have hiz : i < ((uids.zip ms).map (fun p =>
      if p.fst = cu then min (b / 100) 1
      else (1 - min (b / 100) 1) * p.snd / burn_pool uids ms cu)).length := by
    simp [List.length_zip]; omega
  rw [List.getD_eq_getElem _ 0 hiz, List.getElem_map]
  have him : i < ms.length := by omega
  have hizp : i < (uids.zip ms).length := by simp [List.length_zip]; omega
  have hz : (uids.zip ms)[i] = (uids[i], ms[i]) := List.getElem_zip
  rw [hz]
  simp only
  rw [if_neg (by rw [← List.getD_eq_getElem uids 0 hi]; exact hne),
    List.getD_eq_getElem ms 0 (by omega : i < ms.length)]

/-! ### Owner resolution and the owner-only fallback vector -/

theorem owner_only_vector_sum {n oi : Nat} (h : oi < n) :
    (owner_only_vector n oi).sum = 1 := sum_replicate_set n oi h

theorem owner_only_vector_nonneg {n oi : Nat} :
    ∀ x ∈ owner_only_vector n oi, 0 ≤ x := fun _ hx => mem_replicate_set_nonneg hx

theorem owner_only_vector_length (n oi : Nat) :
    (owner_only_vector n oi).length = n := by
  simp [owner_only_vector]

theorem owner_only_vector_getElem {n oi i : Nat} (hi : i < n)
    (hil : i < (owner_only_vector n oi).length) :
    (owner_only_vector n oi)[i] = if i = oi then 1 else 0 := by
  unfold owner_only_vector
  by_cases hio : i = oi
  · subst hio
    rw [if_pos rfl]
    exact List.getElem_set_self _
  · rw [if_neg hio, List.getElem_set_ne (by omega), List.getElem_replicate]

theorem get_owner_index_spec {ctx : SinkCtx} {oi : Nat}
    (h : get_owner_index ctx = some oi) :
    oi < ctx.mg.uids.length ∧ ∃ oh, ctx.ownerHotkey = some oh ∧
      ctx.mg.hotkeys.findIdx? (fun hk => decide (hk = oh)) = some oi := by
  unfold get_owner_index at h
  cases hoh : ctx.ownerHotkey with
  | none => rw [hoh] at h; simp at h
  | some oh =>
    rw [hoh] at h
    dsimp only at h
    cases hf : ctx.mg.hotkeys.findIdx? (fun hk => decide (hk = oh)) with
    | none => rw [hf] at h; simp at h
    | some idx =>
      rw [hf] at h
      dsimp only at h
      by_cases hlt : idx < ctx.mg.uids.length
      · rw [if_pos hlt] at h
        cases Option.some_inj.mp h
        exact ⟨hlt, oh, rfl, hf⟩
      · rw [if_neg hlt] at h
        simp at h

theorem get_owner_index_of_mem {ctx : SinkCtx} {oh : String}
    (hoh : ctx.ownerHotkey = some oh) (hmem : oh ∈ ctx.mg.hotkeys)
    (hlen : ctx.mg.hotkeys.length = ctx.mg.uids.length) :
    ∃ oi, get_owner_index ctx = some oi := by
  have hex : ∃ x ∈ ctx.mg.hotkeys, (fun hk => decide (hk = oh)) x = true :=
    ⟨oh, hmem, by simp⟩
  have hf := List.findIdx?_eq_some_of_exists hex
  have hlt := (List.findIdx?_eq_some_iff_getElem.mp hf).fst
  refine ⟨ctx.mg.hotkeys.findIdx (fun hk => decide (hk = oh)), ?_⟩
  unfold get_owner_index
  rw [hoh]
  dsimp only
  rw [hf]
  dsimp only
  rw [if_pos (by omega)]

theorem get_owner_uid_eq {ctx : SinkCtx} {oi : Nat}
    (h : get_owner_index ctx = some oi) :
    get_owner_uid ctx = some (ctx.mg.uids.getD oi 0) := by
  unfold get_owner_uid
  rw [h]
  rfl

theorem set_weights_to_owner_only_eq {ctx : SinkCtx} {oi : Nat}
    (h : get_owner_index ctx = some oi) :
    set_weights_to_owner_only ctx = some (owner_only_vector ctx.mg.uids.length oi) := by
  unfold set_weights_to_owner_only owner_only_vector
  rw [h]

theorem set_owner_weight_fallback_eq {ctx : SinkCtx} {oi : Nat}
    (h : get_owner_index ctx = some oi) (ws : List ℚ) :
    set_owner_weight_fallback ctx ws = ws.set oi 1 := by
  unfold set_owner_weight_fallback
  rw [h]

/-- In the burn branch with a resolved owner, `publish` submits exactly the
redistributed vector of `apply_creator_burn`: the dict re-alignment is the
identity and the all-zero fallback guard never fires, because the
redistributed vector always sums to `1`. -/
theorem publish_eq_apply_creator_burn {ctx : SinkCtx} {scores : List ScoreResult}
    {b : ℚ} {oi : Nat}
    (hne : ¬(scores = [] ∨ scores.all (fun r => decide (r.score = 0))))
    (hb : ctx.burn = some b) (hbpos : 0 < b)
    (hoi : get_owner_index ctx = some oi)
    (hnd : ctx.mg.uids.Nodup) :
    publish ctx scores =
      some (apply_creator_burn ctx.mg.uids (miner_scores ctx.mg scores)
        (ctx.mg.uids.getD oi 0) b).snd := by
  have hoi_lt := (get_owner_index_spec hoi).1
  have hcu : ctx.mg.uids.getD oi 0 ∈ ctx.mg.uids := by
    rw [List.getD_eq_getElem _ 0 hoi_lt]
    exact List.getElem_mem _
  have hmslen : (miner_scores ctx.mg scores).length = ctx.mg.uids.length :=
    length_miner_scores ctx.mg scores
  have hw : ctx.mg.uids.map (fun u =>
      (dictGet ((apply_creator_burn ctx.mg.uids (miner_scores ctx.mg scores)
        (ctx.mg.uids.getD oi 0) b).fst.zip
        (apply_creator_burn ctx.mg.uids (miner_scores ctx.mg scores)
          (ctx.mg.uids.getD oi 0) b).snd) u).getD 0) =
      (apply_creator_burn ctx.mg.uids (miner_scores ctx.mg scores)
        (ctx.mg.uids.getD oi 0) b).snd := by
    rw [apply_creator_burn_fst hcu]
    exact map_dictGet_zip hnd
      (apply_creator_burn_snd_length hcu hmslen)
  have hsum : (apply_creator_burn ctx.mg.uids (miner_scores ctx.mg scores)
      (ctx.mg.uids.getD oi 0) b).snd.sum = 1 :=
    apply_creator_burn_sum hnd hmslen hcu
  unfold publish
  rw [if_neg hne]
  simp only [hb, get_owner_uid_eq hoi, if_pos hbpos]
  rw [hw, if_neg (by rw [hsum]; norm_num)]

/-! ### Shared preconditions for the burn theorems -/

theorem not_early_branch {scores : List ScoreResult} {r : ScoreResult}
    (hr : r ∈ scores) (hrpos : 0 < r.score) :
    ¬(scores = [] ∨ scores.all (fun s => decide (s.score = 0))) := by
  rintro (h1 | h1)
  · subst h1; simp at hr
  · have h2 := List.all_eq_true.mp h1 r hr
    simp only [decide_eq_true_eq] at h2
    rw [h2] at hrpos
    exact lt_irrefl 0 hrpos

/-- The non-owner positive witness yields a metagraph position whose
miner score is positive and whose UID differs from the owner UID. -/
theorem witness_position {ctx : SinkCtx} {scores : List ScoreResult}
    {r : ScoreResult} {oi : Nat}
    (hndu : ctx.mg.uids.Nodup)
    (hlen : ctx.mg.hotkeys.length = ctx.mg.uids.length)
    (hids : (scores.map ScoreResult.miner_id).Nodup)
    (hoi : get_owner_index ctx = some oi)
    (hr : r ∈ scores) (hrmem : r.miner_id ∈ ctx.mg.hotkeys)
    (hrno : ctx.ownerHotkey ≠ some r.miner_id) :
    ∃ j, j < ctx.mg.uids.length ∧
      (miner_scores ctx.mg scores).getD j 0 = r.score ∧
      ctx.mg.uids.getD j 0 ≠ ctx.mg.uids.getD oi 0 := by
  obtain ⟨hoilt, oh, hohval, hfoh⟩ := get_owner_index_spec hoi
  have hex : ∃ x ∈ ctx.mg.hotkeys, (fun hk => decide (hk = r.miner_id)) x = true :=
    ⟨r.miner_id, hrmem, by simp⟩
  have hfj := List.findIdx?_eq_some_of_exists hex
  have hjlt : ctx.mg.hotkeys.findIdx (fun hk => decide (hk = r.miner_id)) <
      ctx.mg.hotkeys.length := (List.findIdx?_eq_some_iff_getElem.mp hfj).fst
  refine ⟨ctx.mg.hotkeys.findIdx (fun hk => decide (hk = r.miner_id)), by omega, ?_, ?_⟩
  · rw [miner_scores_getD scores (by omega),
      dictGet_scores_by_uid hndu hids hr hfj (by omega)]
    rfl
  · intro heq
    have hji := nodup_getD_inj hndu (by omega) hoilt heq
    have h1 := (findIdx?_eq_some_getD "" hfj).2
    have h2 := (findIdx?_eq_some_getD "" hfoh).2
    rw [hji] at h1
    exact hrno (by rw [hohval, h1.symm.trans h2])

/-! ### Claim theorems: C1 and C4 -/

/-- **C1.** For every `burn_percentage` in `(0, 100]` and every
non-negative score list (distinct miner ids) in which some metagraph miner
other than the subnet owner has a positive score, `publish` produces a
weight vector that sums to `1` (exactly, in ℚ) and whose entry at the
subnet owner's position equals `burn_percentage / 100`. -/
theorem C1_burn_invariant {ctx : SinkCtx} {scores : List ScoreResult} {b : ℚ} {oi : Nat}
    (hndu : ctx.mg.uids.Nodup)
    (hlen : ctx.mg.hotkeys.length = ctx.mg.uids.length)
    (hids : (scores.map ScoreResult.miner_id).Nodup)
    (hnn : ∀ r ∈ scores, 0 ≤ r.score)
    (hb : ctx.burn = some b) (hb0 : 0 < b) (hb100 : b ≤ 100)
    (hoi : get_owner_index ctx = some oi)
    (hwit : ∃ r ∈ scores, 0 < r.score ∧ r.miner_id ∈ ctx.mg.hotkeys ∧
      ctx.ownerHotkey ≠ some r.miner_id) :
    ∃ w, publish ctx scores = some w ∧ w.sum = 1 ∧ w.getD oi 0 = b / 100 := by
  obtain ⟨r, hr, hrpos, hrmem, hrno⟩ := hwit
  have hne := not_early_branch hr hrpos
  have hoilt := (get_owner_index_spec hoi).1
  have hmsl : (miner_scores ctx.mg scores).length = ctx.mg.uids.length :=
    length_miner_scores ctx.mg scores
  have hcum : ctx.mg.uids.getD oi 0 ∈ ctx.mg.uids := by
    rw [List.getD_eq_getElem _ 0 hoilt]
    exact List.getElem_mem _
  obtain ⟨j, hjlt, hmsj, hjne⟩ := witness_position hndu hlen hids hoi hr hrmem hrno
  have hpool : 0 < burn_pool ctx.mg.uids (miner_scores ctx.mg scores)
      (ctx.mg.uids.getD oi 0) :=
    burn_pool_pos (miner_scores_nonneg hnn) hmsl hjlt hjne (by rw [hmsj]; exact hrpos)
  refine ⟨_, publish_eq_apply_creator_burn hne hb hb0 hoi hndu,
    apply_creator_burn_sum hndu hmsl hcum, ?_⟩
  rw [apply_creator_burn_getD_owner hmsl hoilt rfl hpool.ne']
  exact min_eq_left ((div_le_one (by norm_num)).mpr hb100)

/-- Witness for C1: the fixture of `test_burn_50_percent` (scores
0.5/0.3/0.2, 50% burn): the submitted vector sums to 1 and gives the
creator exactly 0.5. -/
theorem C1_burn_invariant_witness :
    ∃ w, publish (test_ctx (some 50)) test_scores = some w ∧
      w.sum = 1 ∧ w.getD 4 0 = 50 / 100 :=
  C1_burn_invariant (by decide) (by decide) (by decide)
    (by intro r hr; fin_cases hr <;> norm_num)
    (by decide) (by norm_num) (by norm_num) (by decide)
    ⟨⟨"MINER1", 1/2, 1, 1/2⟩, by simp [test_scores], by norm_num,
      by simp [test_ctx, test_mg], by simp [test_ctx]⟩

/-- **C4.** When burn applies and the beneficiary appears in the input
scores, its weight is forced to `burn_percentage / 100` and every other
position receives `(1 - burn_percentage/100)` times its own pre-burn score
divided by the pool that *excludes* the beneficiary's pre-burn score
(`total - beneficiary's score`). -/
theorem C4_creator_excluded_from_pool {ctx : SinkCtx} {scores : List ScoreResult}
    {b : ℚ} {oi : Nat}
    (hndu : ctx.mg.uids.Nodup)
    (hlen : ctx.mg.hotkeys.length = ctx.mg.uids.length)
    (hids : (scores.map ScoreResult.miner_id).Nodup)
    (hnn : ∀ r ∈ scores, 0 ≤ r.score)
    (hb : ctx.burn = some b) (hb0 : 0 < b) (hb100 : b ≤ 100)
    (hoi : get_owner_index ctx = some oi)
    (_hcreator : ∃ rc ∈ scores, ctx.ownerHotkey = some rc.miner_id ∧ 0 < rc.score)
    (hwit : ∃ r ∈ scores, 0 < r.score ∧ r.miner_id ∈ ctx.mg.hotkeys ∧
      ctx.ownerHotkey ≠ some r.miner_id) :
    ∃ w, publish ctx scores = some w ∧ w.getD oi 0 = b / 100 ∧
      ∀ i, i < ctx.mg.uids.length → i ≠ oi →
        w.getD i 0 = (1 - b / 100) * (miner_scores ctx.mg scores).getD i 0 /
          ((miner_scores ctx.mg scores).sum - (miner_scores ctx.mg scores).getD oi 0) := by
  obtain ⟨r, hr, hrpos, hrmem, hrno⟩ := hwit
  have hne := not_early_branch hr hrpos
  have hoilt := (get_owner_index_spec hoi).1
  have hmsl : (miner_scores ctx.mg scores).length = ctx.mg.uids.length :=
    length_miner_scores ctx.mg scores
  have hcum : ctx.mg.uids.getD oi 0 ∈ ctx.mg.uids := by
    rw [List.getD_eq_getElem _ 0 hoilt]
    exact List.getElem_mem _
  obtain ⟨j, hjlt, hmsj, hjne⟩ := witness_position hndu hlen hids hoi hr hrmem hrno
  have hpool : 0 < burn_pool ctx.mg.uids (miner_scores ctx.mg scores)
      (ctx.mg.uids.getD oi 0) :=
    burn_pool_pos (miner_scores_nonneg hnn) hmsl hjlt hjne (by rw [hmsj]; exact hrpos)
  have hfrac : min (b / 100) 1 = b / 100 :=
    min_eq_left ((div_le_one (by norm_num)).mpr hb100)
  have hmemz : (ctx.mg.uids.getD oi 0, (miner_scores ctx.mg scores).getD oi 0) ∈
      ctx.mg.uids.zip (miner_scores ctx.mg scores) := by
    have hoim : oi < (miner_scores ctx.mg scores).length := by omega
    have hoiz : oi < (ctx.mg.uids.zip (miner_scores ctx.mg scores)).length := by
      simp [List.length_zip, hmsl]; omega
    have hz : (ctx.mg.uids.zip (miner_scores ctx.mg scores))[oi] =
        (ctx.mg.uids[oi], (miner_scores ctx.mg scores)[oi]) :=
      List.getElem_zip
    rw [List.getD_eq_getElem _ 0 hoilt, List.getD_eq_getElem _ 0 (by omega), ← hz]
    exact List.getElem_mem _
  have hpool_eq : burn_pool ctx.mg.uids (miner_scores ctx.mg scores)
      (ctx.mg.uids.getD oi 0) =
      (miner_scores ctx.mg scores).sum - (miner_scores ctx.mg scores).getD oi 0 :=
    burn_pool_eq_sum_sub hndu hmsl hmemz
  refine ⟨_, publish_eq_apply_creator_burn hne hb hb0 hoi hndu, ?_, ?_⟩
  · rw [apply_creator_burn_getD_owner hmsl hoilt rfl hpool.ne']
    exact hfrac
  · intro i hi hine
    have hune : ctx.mg.uids.getD i 0 ≠ ctx.mg.uids.getD oi 0 := by
      intro heq
      exact hine (nodup_getD_inj hndu hi hoilt heq)
    rw [apply_creator_burn_getD_other hmsl hcum hi hune hpool.ne', hfrac, hpool_eq]

/-- Witness for C4: scenario D (scores 0.5 and 0.3 plus the creator's 0.2,
30% burn): the creator is forced to 0.3 and the miners split 0.7 over the
pool 0.8 that excludes the creator's score. -/
theorem C4_creator_excluded_from_pool_witness :
    ∃ w, publish (test_ctx (some 30)) test_scores_with_creator = some w ∧
      w.getD 4 0 = 30 / 100 ∧
      ∀ i, i < (test_ctx (some 30)).mg.uids.length → i ≠ 4 →
        w.getD i 0 = (1 - 30 / 100) *
          (miner_scores (test_ctx (some 30)).mg test_scores_with_creator).getD i 0 /
          ((miner_scores (test_ctx (some 30)).mg test_scores_with_creator).sum -
            (miner_scores (test_ctx (some 30)).mg test_scores_with_creator).getD 4 0) :=
  C4_creator_excluded_from_pool (by decide) (by decide) (by decide)
    (by intro r hr; fin_cases hr <;> norm_num)
    (by decide) (by norm_num) (by norm_num) (by decide)
    ⟨⟨"CREATOR", 1/5, 1, 1/5⟩, by simp [test_scores_with_creator],
      by simp [test_ctx], by norm_num⟩
    ⟨⟨"MINER1", 1/2, 1, 1/2⟩, by simp [test_scores_with_creator], by norm_num,
      by simp [test_ctx, test_mg], by simp [test_ctx]⟩

/-! ### Aggregation lemmas -/

theorem list_eq_range_map (l : List ℚ) :
    (List.range l.length).map (fun i => l.getD i 0) = l := by
  apply List.ext_getElem (by simp)
  intro i h1 h2
  simp only [List.getElem_map, List.getElem_range]
  exact List.getD_eq_getElem l 0 h2

theorem all_zero_of_nonneg_sum_zero {l : List ℚ} (hnn : ∀ x ∈ l, 0 ≤ x)
    (hs : l.sum = 0) : ∀ x ∈ l, x = 0 := by
  induction l with
  | nil => intro x hx; simp at hx
  | cons a t ih =>
    rw [List.sum_cons] at hs
    have ha : 0 ≤ a := hnn a (by simp)
    have ht : 0 ≤ t.sum := List.sum_nonneg (fun x hx => hnn x (by simp [hx]))
    have ha0 : a = 0 := by linarith
    have hts : t.sum = 0 := by linarith
    intro x hx
    rcases List.mem_cons.mp hx with h | h
    · rw [h, ha0]
    · exact ih (fun y hy => hnn y (by simp [hy])) hts x h

theorem dictGet_eq_none {α β : Type} [DecidableEq α] {l : List (α × β)} {k : α}
    (h : k ∉ l.map Prod.fst) : dictGet l k = none := by
  unfold dictGet
  rw [List.find?_eq_none.mpr]
  · rfl
  · intro p hp
    simp only [decide_eq_true_eq]
    intro hpk
    exact h (hpk ▸ List.mem_map_of_mem Prod.fst (List.mem_reverse.mp hp))

theorem keys_filterMap_splits (T : ℚ) (cs : List Campaign) :
    List.Sublist ((cs.filterMap (fun c =>
      match c.emission_split with
      | some s => if 0 < s then some (c.scope, s / T) else none
      | none => none)).map Prod.fst) (cs.map Campaign.scope) := by
  induction cs with
  | nil => simp
  | cons c t ih =>
    rw [List.filterMap_cons, List.map_cons]
    cases c.emission_split with
    | none => exact ih.cons _
    | some s =>
      by_cases hs : 0 < s
      · simp only [hs, if_true, List.map_cons]
        exact ih.cons₂ _
      · simp only [hs, if_false]
        exact ih.cons _

theorem campaign_weights_keys_nodup {cs : List Campaign}
    (hnd : (cs.map Campaign.scope).Nodup) :
    ((campaign_weights cs).map Prod.fst).Nodup := by
  unfold campaign_weights
  split
  · exact hnd.sublist (keys_filterMap_splits _ cs)
  · have hmm : (cs.map (fun c => (c.scope, 1 / (cs.length : ℚ)))).map Prod.fst =
        cs.map Campaign.scope := by
      rw [List.map_map]
      rfl
    rw [hmm]
    exact hnd

theorem raw_splits_pos (cs : List Campaign) : ∀ s ∈ raw_splits cs, 0 < s := by
  intro s hs
  rcases List.mem_filterMap.mp hs with ⟨c, _, hg⟩
  cases hsp : c.emission_split with
  | none => rw [hsp] at hg; simp at hg
  | some s2 =>
    rw [hsp] at hg
    dsimp only at hg
    by_cases h2 : 0 < s2
    · rw [if_pos h2] at hg
      rw [← Option.some_inj.mp hg]
      exact h2
    · rw [if_neg h2] at hg
      simp at hg

theorem emission_weight_pos_split {cs : List Campaign} {c : Campaign} {s : ℚ}
    (hnd : (cs.map Campaign.scope).Nodup) (hc : c ∈ cs)
    (hs : c.emission_split = some s) (hspos : 0 < s) :
    emission_weight cs c.scope = s / (raw_splits cs).sum := by
  have hsr : s ∈ raw_splits cs :=
    List.mem_filterMap.mpr ⟨c, hc, by rw [hs]; simp [hspos]⟩
  have hraw : raw_splits cs ≠ [] := by
    intro h0
    rw [h0] at hsr
    simp at hsr
  have hmem : (c.scope, s / (raw_splits cs).sum) ∈ campaign_weights cs := by
    unfold campaign_weights
    rw [if_pos hraw]
    exact List.mem_filterMap.mpr ⟨c, hc, by rw [hs]; simp [hspos]⟩
  unfold emission_weight
  rw [dictGet_eq_of_nodup (campaign_weights_keys_nodup hnd) hmem]
  rfl

theorem emission_weight_no_split {cs : List Campaign} {c : Campaign}
    (hnd : (cs.map Campaign.scope).Nodup) (hc : c ∈ cs)
    (hraw : raw_splits cs ≠ [])
    (hs : ∀ s, c.emission_split = some s → ¬0 < s) :
    emission_weight cs c.scope = 0 := by
  have hkey : c.scope ∉ (campaign_weights cs).map Prod.fst := by
    intro hmem
    rcases List.mem_map.mp hmem with ⟨⟨k, v⟩, hkv, hk⟩
    simp only at hk
    unfold campaign_weights at hkv
    rw [if_pos hraw] at hkv
    rcases List.mem_filterMap.mp hkv with ⟨c2, hc2, hg⟩
    cases hsp : c2.emission_split with
    | none => rw [hsp] at hg; simp at hg
    | some s2 =>
      rw [hsp] at hg
      dsimp only at hg
      by_cases hs2 : 0 < s2
      · rw [if_pos hs2] at hg
        have hkc : c2.scope = k := congrArg Prod.fst (Option.some_inj.mp hg)
        have hcc : c2 = c := List.inj_on_of_nodup_map hnd hc2 hc (by rw [hkc, hk])
        rw [hcc] at hsp
        exact hs s2 hsp hs2
      · rw [if_neg hs2] at hg
        simp at hg
  unfold emission_weight
  rw [dictGet_eq_none hkey]
  rfl

theorem emission_weight_uniform {cs : List Campaign} {c : Campaign}
    (hnd : (cs.map Campaign.scope).Nodup) (hc : c ∈ cs)
    (hraw : raw_splits cs = []) :
    emission_weight cs c.scope = 1 / (cs.length : ℚ) := by
  have hmem : (c.scope, 1 / (cs.length : ℚ)) ∈ campaign_weights cs := by
    unfold campaign_weights
    rw [if_neg (fun h => h hraw)]
    exact List.mem_map_of_mem _ hc
  unfold emission_weight
  rw [dictGet_eq_of_nodup (campaign_weights_keys_nodup hnd) hmem]
  rfl

theorem emission_weight_eq_claimed_share {cs : List Campaign}
    (hnd : (cs.map Campaign.scope).Nodup) :
    ∀ c ∈ cs, emission_weight cs c.scope = claimed_share cs c := by
  intro c hc
  unfold claimed_share
  by_cases hraw : raw_splits cs ≠ []
  · rw [if_pos hraw]
    cases hsp : c.emission_split with
    | none =>
      exact emission_weight_no_split hnd hc hraw (fun s h => by rw [hsp] at h; cases h)
    | some s =>
      dsimp only
      by_cases hs : 0 < s
      · rw [if_pos hs]
        exact emission_weight_pos_split hnd hc hsp hs
      · rw [if_neg hs]
        refine emission_weight_no_split hnd hc hraw (fun s2 h2 => ?_)
        rw [hsp] at h2
        cases Option.some_inj.mp h2
        exact hs
  · rw [if_neg hraw]
    exact emission_weight_uniform hnd hc (not_not.mp hraw)

theorem emission_weight_nonneg (cs : List Campaign) (scope : String) :
    0 ≤ emission_weight cs scope := by
  unfold emission_weight
  cases hd : dictGet (campaign_weights cs) scope with
  | none => simp
  | some v =>
    simp only [Option.getD_some]
    have hmem := dictGet_mem hd
    unfold campaign_weights at hmem
    split at hmem
    case isTrue hraw =>
      rcases List.mem_filterMap.mp hmem with ⟨c, _, hg⟩
      have hT : 0 < (raw_splits cs).sum := List.sum_pos _ (raw_splits_pos cs) hraw
      cases hsp : c.emission_split with
      | none => rw [hsp] at hg; simp at hg
      | some s =>
        rw [hsp] at hg
        dsimp only at hg
        by_cases hs : 0 < s
        · rw [if_pos hs] at hg
          have hv : s / (raw_splits cs).sum = v :=
            congrArg Prod.snd (Option.some_inj.mp hg)
          rw [← hv]
          positivity
        · rw [if_neg hs] at hg
          simp at hg
    case isFalse hraw =>
      rcases List.mem_map.mp hmem with ⟨c, _, hg⟩
      have hv : 1 / (cs.length : ℚ) = v := congrArg Prod.snd hg
      rw [← hv]
      positivity

theorem foldl_weighted_zipWith (g : Campaign → ℚ) (vec : String → List ℚ) :
    ∀ (l : List Campaign) (acc : List ℚ),
    (∀ c ∈ l, (vec c.scope).length = acc.length) →
    (∀ c ∈ l, 0 ≤ g c) →
    (l.foldl (fun acc c =>
      if g c ≤ 0 then acc
      else acc.zipWith (fun a w => a + g c * w) (vec c.scope)) acc) =
    (List.range acc.length).map (fun i =>
      acc.getD i 0 + (l.map (fun c => g c * (vec c.scope).getD i 0)).sum) := by
  intro l
  induction l with
  | nil =>
    intro acc _ _
    simp only [List.foldl_nil, List.map_nil, List.sum_nil, add_zero]
    exact (list_eq_range_map acc).symm
  | cons c rest ih =>
    intro acc hlen hg
    have hlc : (vec c.scope).length = acc.length := hlen c (by simp)
    have hstep : (if g c ≤ 0 then acc
        else acc.zipWith (fun a w => a + g c * w) (vec c.scope)) =
        acc.zipWith (fun a w => a + g c * w) (vec c.scope) := by
      by_cases hgc : g c ≤ 0
      · have hg0 : g c = 0 := le_antisymm hgc (hg c (by simp))
        rw [if_pos hgc]
        apply List.ext_getElem (by rw [List.length_zipWith]; omega)
        intro i h1 h2
        rw [List.getElem_zipWith]
        simp only [hg0, zero_mul, add_zero]
      · rw [if_neg hgc]
    have hlen2 : (acc.zipWith (fun a w => a + g c * w) (vec c.scope)).length =
        acc.length := by
      rw [List.length_zipWith]
      omega
    rw [List.foldl_cons, hstep,
      ih _ (fun c2 h2 => by rw [hlen2]; exact hlen c2 (List.mem_cons_of_mem _ h2))
        (fun c2 h2 => hg c2 (List.mem_cons_of_mem _ h2)),
      hlen2]
    apply List.map_congr_left
    intro i hi
    have hi2 : i < acc.length := List.mem_range.mp hi
    have hacc : (acc.zipWith (fun a w => a + g c * w) (vec c.scope)).getD i 0 =
        acc.getD i 0 + g c * (vec c.scope).getD i 0 := by
      rw [List.getD_eq_getElem _ 0 (by omega), List.getElem_zipWith,
        List.getD_eq_getElem _ 0 hi2, List.getD_eq_getElem _ 0 (by omega)]
    rw [hacc, List.map_cons, List.sum_cons]
    ring

theorem aggregated_scores_eq_spec (cs : List Campaign) (vec : String → List ℚ) (n : Nat)
    (hlen : ∀ c ∈ cs, (vec c.scope).length = n) :
    aggregated_scores cs vec n =
      spec_linear_combination cs (fun c => emission_weight cs c.scope) vec n := by
  unfold aggregated_scores spec_linear_combination
  rw [foldl_weighted_zipWith (fun c => emission_weight cs c.scope) vec cs
    (List.replicate n 0) (by intro c hc; simp [hlen c hc])
    (fun c _ => emission_weight_nonneg cs c.scope)]
  rw [List.length_replicate]
  apply List.map_congr_left
  intro i hi
  have hi2 : i < n := List.mem_range.mp hi
  rw [List.getD_eq_getElem _ 0 (by simpa using hi2), List.getElem_replicate]
  ring

theorem aggregated_scores_length (cs : List Campaign) (vec : String → List ℚ) (n : Nat)
    (hlen : ∀ c ∈ cs, (vec c.scope).length = n) :
    (aggregated_scores cs vec n).length = n := by
  rw [aggregated_scores_eq_spec cs vec n hlen]
  simp [spec_linear_combination]

theorem getD_nonneg {l : List ℚ} (hnn : ∀ x ∈ l, 0 ≤ x) (i : Nat) : 0 ≤ l.getD i 0 := by
  by_cases hi : i < l.length
  · rw [List.getD_eq_getElem l 0 hi]
    exact hnn _ (List.getElem_mem _)
  · rw [List.getD_eq_default l 0 (by omega)]

theorem aggregated_scores_nonneg (cs : List Campaign) (vec : String → List ℚ) (n : Nat)
    (hlen : ∀ c ∈ cs, (vec c.scope).length = n)
    (hv : ∀ c ∈ cs, ∀ x ∈ vec c.scope, 0 ≤ x) :
    ∀ x ∈ aggregated_scores cs vec n, 0 ≤ x := by
  rw [aggregated_scores_eq_spec cs vec n hlen]
  intro x hx
  unfold spec_linear_combination at hx
  rcases List.mem_map.mp hx with ⟨i, _, hix⟩
  rw [← hix]
  apply List.sum_nonneg
  intro y hy
  rcases List.mem_map.mp hy with ⟨c, hc, hcy⟩
  rw [← hcy]
  exact mul_nonneg (emission_weight_nonneg cs c.scope) (getD_nonneg (hv c hc) i)

theorem zip_indicator_eq_owner_only {uids : List Nat} {ms : List ℚ} {oi : Nat}
    (hnd : uids.Nodup) (hlen : ms.length = uids.length) (hoi : oi < uids.length) :
    (uids.zip ms).map (fun p => if p.fst = uids.getD oi 0 then (1 : ℚ) else 0) =
      owner_only_vector uids.length oi := by
  apply List.ext_getElem (by simp [List.length_zip, hlen, owner_only_vector])
  intro i h1 h2
  have hi : i < uids.length := by
    simp only [List.length_map, List.length_zip] at h1
    omega
  rw [List.getElem_map]
  have him : i < ms.length := by omega
  have hizp : i < (uids.zip ms).length := by simp only [List.length_zip]; omega
  have hz : (uids.zip ms)[i] = (uids[i], ms[i]) := List.getElem_zip
  rw [hz, owner_only_vector_getElem hi h2]
  simp only
  by_cases hio : i = oi
  · subst hio
    rw [if_pos (by rw [List.getD_eq_getElem uids 0 hi]), if_pos rfl]
  · rw [if_neg hio, if_neg ?_]
    rw [List.getD_eq_getElem uids 0 hoi]
    intro heq
    exact hio ((List.Nodup.getElem_inj_iff hnd).mp heq)

/-- Outside the burn branch (no resolver value, a non-positive value, or
an unresolved owner making the burn fail soft), `publish` submits
`weights_before_burn`. -/
theorem publish_eq_before_burn {ctx : SinkCtx} {scores : List ScoreResult}
    (hne : ¬(scores = [] ∨ scores.all (fun r => decide (r.score = 0))))
    (hb : ctx.burn = none ∨ (∃ b, ctx.burn = some b ∧ ¬0 < b) ∨
      ((∃ b, ctx.burn = some b ∧ 0 < b) ∧ get_owner_uid ctx = none)) :
    publish ctx scores =
      some (if 0 < (miner_scores ctx.mg scores).sum then
        (miner_scores ctx.mg scores).map
          (fun s => s / (miner_scores ctx.mg scores).sum)
      else set_owner_weight_fallback ctx (List.replicate ctx.mg.uids.length 0)) := by
  unfold publish
  rw [if_neg hne]
  rcases hb with h | ⟨b, hb1, hb2⟩ | ⟨⟨b, hb1, hb2⟩, hcu⟩
  · simp only [h]
  · simp only [hb1, if_neg hb2]
  · simp only [hb1, if_pos hb2, hcu]

/-- **C2.** Every weight vector that `publish` or `_process_weights`
submits towards the chain is non-negative and sums to `1` (hence never
all-zero); whenever the relevant score total is `0`, the submitted vector
is exactly the owner-only fallback. -/
theorem C2_no_zero_vector {ctx : SinkCtx} {scores : List ScoreResult}
    {cs : List Campaign} {vec : String → List ℚ} {oh : String}
    (hndu : ctx.mg.uids.Nodup)
    (hlen : ctx.mg.hotkeys.length = ctx.mg.uids.length)
    (hoh : ctx.ownerHotkey = some oh) (hohm : oh ∈ ctx.mg.hotkeys)
    (hnn : ∀ r ∈ scores, 0 ≤ r.score)
    (hbn : ∀ b, ctx.burn = some b → 0 ≤ b)
    (hveclen : ∀ c ∈ cs, (vec c.scope).length = ctx.mg.uids.length)
    (hvecnn : ∀ c ∈ cs, ∀ x ∈ vec c.scope, 0 ≤ x) :
    (∃ oi w, get_owner_index ctx = some oi ∧
      publish ctx scores = some w ∧ (∀ x ∈ w, 0 ≤ x) ∧ w.sum = 1 ∧
      ((miner_scores ctx.mg scores).sum = 0 →
        w = owner_only_vector ctx.mg.uids.length oi)) ∧
    (∃ oi w, get_owner_index ctx = some oi ∧
      process_weights_vector ctx cs vec = some w ∧ (∀ x ∈ w, 0 ≤ x) ∧ w.sum = 1 ∧
      ((aggregated_scores cs vec ctx.mg.uids.length).sum = 0 →
        w = owner_only_vector ctx.mg.uids.length oi)) := by
  obtain ⟨oi, hoi⟩ := get_owner_index_of_mem hoh hohm hlen
  have hoilt := (get_owner_index_spec hoi).1
  have hmsnn : ∀ x ∈ miner_scores ctx.mg scores, 0 ≤ x := miner_scores_nonneg hnn
  have hmsl := length_miner_scores ctx.mg scores
  have hcum : ctx.mg.uids.getD oi 0 ∈ ctx.mg.uids := by
    rw [List.getD_eq_getElem _ 0 hoilt]
    exact List.getElem_mem _
  constructor
  · -- publish part
    by_cases hearly : scores = [] ∨ scores.all (fun r => decide (r.score = 0))
    · refine ⟨oi, _, hoi, ?_, owner_only_vector_nonneg,
        owner_only_vector_sum hoilt, fun _ => rfl⟩
      unfold publish
      rw [if_pos hearly, set_weights_to_owner_only_eq hoi]
    · by_cases htot : 0 < (miner_scores ctx.mg scores).sum
      · -- positive total; before-burn vector or redistribution, both sum to 1
        cases hbv : ctx.burn with
        | none =>
          refine ⟨oi, _, hoi, publish_eq_before_burn hearly (Or.inl hbv), ?_, ?_, ?_⟩
          · rw [if_pos htot]
            intro x hx
            rcases List.mem_map.mp hx with ⟨y, hy, hyx⟩
            rw [← hyx]
            exact div_nonneg (hmsnn y hy) htot.le
          · rw [if_pos htot, sum_map_div]
            exact div_self htot.ne'
          · intro h0
            rw [h0] at htot
            exact absurd htot (lt_irrefl 0)
        | some b =>
          by_cases hbp : 0 < b
          · refine ⟨oi, _, hoi,
              publish_eq_apply_creator_burn hearly hbv hbp hoi hndu,
              apply_creator_burn_nonneg hmsnn (hbn b hbv) hcum,
              apply_creator_burn_sum hndu hmsl hcum, ?_⟩
            intro h0
            rw [h0] at htot
            exact absurd htot (lt_irrefl 0)
          · refine ⟨oi, _, hoi,
              publish_eq_before_burn hearly (Or.inr (Or.inl ⟨b, hbv, hbp⟩)), ?_, ?_, ?_⟩
            · rw [if_pos htot]
              intro x hx
              rcases List.mem_map.mp hx with ⟨y, hy, hyx⟩
              rw [← hyx]
              exact div_nonneg (hmsnn y hy) htot.le
            · rw [if_pos htot, sum_map_div]
              exact div_self htot.ne'
            · intro h0
              rw [h0] at htot
              exact absurd htot (lt_irrefl 0)
      · -- zero total: the submitted vector is the owner-only fallback
        have htz : (miner_scores ctx.mg scores).sum = 0 :=
          le_antisymm (not_lt.mp htot) (List.sum_nonneg hmsnn)
        have hfall : set_owner_weight_fallback ctx
            (List.replicate ctx.mg.uids.length 0) =
            owner_only_vector ctx.mg.uids.length oi := by
          rw [set_owner_weight_fallback_eq hoi]
          rfl
        cases hbv : ctx.burn with
        | none =>
          refine ⟨oi, _, hoi, publish_eq_before_burn hearly (Or.inl hbv), ?_, ?_, ?_⟩
          · rw [if_neg htot, hfall]
            exact owner_only_vector_nonneg
          · rw [if_neg htot, hfall]
            exact owner_only_vector_sum hoilt
          · intro _
            rw [if_neg htot, hfall]
        | some b =>
          by_cases hbp : 0 < b
          · -- burn with an all-zero pool: the beneficiary-only fallback
            have hallz := all_zero_of_nonneg_sum_zero hmsnn htz
            have hpool0 : burn_pool ctx.mg.uids (miner_scores ctx.mg scores)
                (ctx.mg.uids.getD oi 0) = 0 := by
              apply List.sum_eq_zero
              intro x hx
              rcases List.mem_map.mp hx with ⟨p, hp, hpx⟩
              obtain ⟨a, c⟩ := p
              rw [← hpx]
              exact hallz c (List.of_mem_zip (List.mem_filter.mp hp).1).2
            have hsnd : (apply_creator_burn ctx.mg.uids (miner_scores ctx.mg scores)
                (ctx.mg.uids.getD oi 0) b).snd =
                owner_only_vector ctx.mg.uids.length oi := by
              rw [apply_creator_burn_snd_of_mem hcum, if_pos hpool0]
              exact zip_indicator_eq_owner_only hndu hmsl hoilt
            refine ⟨oi, _, hoi,
              publish_eq_apply_creator_burn hearly hbv hbp hoi hndu, ?_, ?_, ?_⟩
            · rw [hsnd]
              exact owner_only_vector_nonneg
            · rw [hsnd]
              exact owner_only_vector_sum hoilt
            · intro _
              rw [hsnd]
          · refine ⟨oi, _, hoi,
              publish_eq_before_burn hearly (Or.inr (Or.inl ⟨b, hbv, hbp⟩)), ?_, ?_, ?_⟩
            · rw [if_neg htot, hfall]
              exact owner_only_vector_nonneg
            · rw [if_neg htot, hfall]
              exact owner_only_vector_sum hoilt
            · intro _
              rw [if_neg htot, hfall]
  · -- _process_weights part
    by_cases hcs : cs = []
    · refine ⟨oi, _, hoi, ?_, owner_only_vector_nonneg,
        owner_only_vector_sum hoilt, fun _ => rfl⟩
      unfold process_weights_vector
      rw [if_pos hcs, set_weights_to_owner_only_eq hoi]
    · have haggnn := aggregated_scores_nonneg cs vec ctx.mg.uids.length hveclen hvecnn
      by_cases hz : (aggregated_scores cs vec ctx.mg.uids.length).sum = 0
      · refine ⟨oi, _, hoi, ?_, owner_only_vector_nonneg,
          owner_only_vector_sum hoilt, fun _ => rfl⟩
        unfold process_weights_vector
        rw [if_neg hcs]
        simp only [hz, if_pos]
        rw [set_weights_to_owner_only_eq hoi]
      · have hspos : 0 < (aggregated_scores cs vec ctx.mg.uids.length).sum :=
          lt_of_le_of_ne (List.sum_nonneg haggnn) (Ne.symm hz)
        refine ⟨oi, (aggregated_scores cs vec ctx.mg.uids.length).map
            (fun s => s / (aggregated_scores cs vec ctx.mg.uids.length).sum),
          hoi, ?_, ?_, ?_, fun h0 => absurd h0 hz⟩
        · unfold process_weights_vector
          rw [if_neg hcs, if_neg hz]
        · intro x hx
          rcases List.mem_map.mp hx with ⟨y, hy, hyx⟩
          rw [← hyx]
          exact div_nonneg (haggnn y hy) hspos.le
        · rw [sum_map_div]
          exact div_self hz

/-- Witness for C2: the fixture metagraph with 50% burn and scores
0.5/0.3/0.2, plus the two split campaigns with unit vectors. -/
theorem C2_no_zero_vector_witness :
    (∃ oi w, get_owner_index (test_ctx (some 50)) = some oi ∧
      publish (test_ctx (some 50)) test_scores = some w ∧
      (∀ x ∈ w, 0 ≤ x) ∧ w.sum = 1 ∧
      ((miner_scores (test_ctx (some 50)).mg test_scores).sum = 0 →
        w = owner_only_vector (test_ctx (some 50)).mg.uids.length oi)) ∧
    (∃ oi w, get_owner_index (test_ctx (some 50)) = some oi ∧
      process_weights_vector (test_ctx (some 50)) test_campaigns test_vec = some w ∧
      (∀ x ∈ w, 0 ≤ x) ∧ w.sum = 1 ∧
      ((aggregated_scores test_campaigns test_vec
          (test_ctx (some 50)).mg.uids.length).sum = 0 →
        w = owner_only_vector (test_ctx (some 50)).mg.uids.length oi)) :=
  @C2_no_zero_vector (test_ctx (some 50)) test_scores test_campaigns test_vec
    "CREATOR" (by decide) (by decide) (by decide) (by decide)
    (by intro r hr; fin_cases hr <;> norm_num)
    (by intro b hb; cases Option.some_inj.mp hb; norm_num)
    (by intro c hc; fin_cases hc <;> decide)
    (by intro c hc; fin_cases hc <;> (intro x hx; fin_cases hx <;> norm_num))

/-- **C3.** With distinct campaign scopes: every campaign's aggregation
share equals the claim's formula (positive declared splits normalised by
the total of the declared splits, `0` for campaigns without a positive
declared split, uniform `1/N` when none is declared); the aggregate equals
the pointwise sum over campaigns of share times that campaign's
burn-adjusted vector; and a nonzero aggregate is renormalised so the
submitted vector sums to exactly `1`. -/
theorem C3_emission_split_aggregation {cs : List Campaign} {vec : String → List ℚ}
    {ctx : SinkCtx}
    (hnd : (cs.map Campaign.scope).Nodup) (hcs : cs ≠ [])
    (hlen : ∀ c ∈ cs, (vec c.scope).length = ctx.mg.uids.length) :
    (∀ c ∈ cs, emission_weight cs c.scope = claimed_share cs c) ∧
    aggregated_scores cs vec ctx.mg.uids.length =
      spec_linear_combination cs (claimed_share cs) vec ctx.mg.uids.length ∧
    ((aggregated_scores cs vec ctx.mg.uids.length).sum ≠ 0 →
      process_weights_vector ctx cs vec =
        some ((aggregated_scores cs vec ctx.mg.uids.length).map
          (fun s => s / (aggregated_scores cs vec ctx.mg.uids.length).sum)) ∧
      ∀ w, process_weights_vector ctx cs vec = some w → w.sum = 1) := by
  have hshare := emission_weight_eq_claimed_share hnd
  refine ⟨hshare, ?_, ?_⟩
  · rw [aggregated_scores_eq_spec cs vec _ hlen]
    unfold spec_linear_combination
    apply List.map_congr_left
    intro i _
    exact congrArg List.sum
      (List.map_congr_left (fun c hc => by dsimp only; rw [hshare c hc]))
  · intro hz
    constructor
    · unfold process_weights_vector
      rw [if_neg hcs, if_neg hz]
    · intro w hw
      unfold process_weights_vector at hw
      rw [if_neg hcs, if_neg hz] at hw
      cases Option.some_inj.mp hw
      rw [sum_map_div]
      exact div_self hz

/-- Witness for C3: splits 70 and 30 over two campaigns with unit
per-campaign vectors in the fixture metagraph. -/
theorem C3_emission_split_aggregation_witness :
    (∀ c ∈ test_campaigns,
      emission_weight test_campaigns c.scope = claimed_share test_campaigns c) ∧
    aggregated_scores test_campaigns test_vec (test_ctx none).mg.uids.length =
      spec_linear_combination test_campaigns (claimed_share test_campaigns) test_vec
        (test_ctx none).mg.uids.length ∧
    ((aggregated_scores test_campaigns test_vec
        (test_ctx none).mg.uids.length).sum ≠ 0 →
      process_weights_vector (test_ctx none) test_campaigns test_vec =
        some ((aggregated_scores test_campaigns test_vec
          (test_ctx none).mg.uids.length).map
          (fun s => s / (aggregated_scores test_campaigns test_vec
            (test_ctx none).mg.uids.length).sum)) ∧
      ∀ w, process_weights_vector (test_ctx none) test_campaigns test_vec = some w →
        w.sum = 1) :=
  C3_emission_split_aggregation (by decide) (by decide)
    (by intro c hc; fin_cases hc <;> decide)

theorem scores_by_uid_filter_known (mg : Metagraph) (scores : List ScoreResult) :
    scores_by_uid mg (scores.filter (fun r => decide (r.miner_id ∈ mg.hotkeys))) =
      scores_by_uid mg scores := by
  induction scores with
  | nil => rfl
  | cons r rest ih =>
    by_cases hm : r.miner_id ∈ mg.hotkeys
    · rw [List.filter_cons_of_pos (by simpa using hm)]
      unfold scores_by_uid
      rw [List.filterMap_cons, List.filterMap_cons]
      cases hidx : mg.hotkeys.findIdx? (fun h => decide (h = r.miner_id)) with
      | none => simp only [hidx]; exact ih
      | some idx =>
        simp only [hidx]
        by_cases hlt : idx < mg.uids.length
        · simp only [hlt, if_true]
          exact congrArg (List.cons (mg.uids.getD idx 0, r.score)) ih
        · rw [if_neg hlt]
          exact ih
    · rw [List.filter_cons_of_neg (by simpa using hm)]
      have hnone : mg.hotkeys.findIdx? (fun h => decide (h = r.miner_id)) = none := by
        rw [List.findIdx?_eq_none_iff]
        intro x hx
        exact decide_eq_false (fun hxr => hm (hxr ▸ hx))
      unfold scores_by_uid
      rw [List.filterMap_cons]
      simp only [hnone]
      exact ih

/-- **C10.** In `publish`'s weight construction, a ScoreResult whose
miner_id is not one of the metagraph's hotkeys contributes nothing (the
entry is skipped — filtering such entries out leaves `miner_scores`
unchanged, and the embedding is a total function, so nothing is raised),
and every metagraph position whose hotkey has no score entry receives
pre-normalisation weight `0.0`. -/
theorem C10_unknown_hotkey_skipped {mg : Metagraph} {scores : List ScoreResult}
    (hndu : mg.uids.Nodup) :
    miner_scores mg scores =
      miner_scores mg (scores.filter (fun r => decide (r.miner_id ∈ mg.hotkeys))) ∧
    ∀ i, i < mg.uids.length →
      (∀ r ∈ scores, r.miner_id ≠ mg.hotkeys.getD i "") →
      (miner_scores mg scores).getD i 0 = 0 := by
  constructor
  · unfold miner_scores
    rw [scores_by_uid_filter_known]
  · intro i hi hno
    rw [miner_scores_getD scores hi]
    cases hd : dictGet (scores_by_uid mg scores) (mg.uids.getD i 0) with
    | none => rfl
    | some v =>
      exfalso
      rcases mem_scores_by_uid (dictGet_mem hd) with ⟨r, hr, idx, hidx, hlt, hu, _⟩
      have hii : idx = i := nodup_getD_inj hndu hlt hi hu.symm
      have h1 := (findIdx?_eq_some_getD "" hidx).2
      rw [hii] at h1
      exact hno r hr h1.symm

/-- Witness for C10: a score list with an unknown hotkey over the fixture
metagraph; position 3 (`MINER3`) has no score entry. -/
theorem C10_unknown_hotkey_skipped_witness :
    (miner_scores test_mg test_scores_unknown =
      miner_scores test_mg (test_scores_unknown.filter
        (fun r => decide (r.miner_id ∈ test_mg.hotkeys)))) ∧
    ∀ i, i < test_mg.uids.length →
      (∀ r ∈ test_scores_unknown, r.miner_id ≠ test_mg.hotkeys.getD i "") →
      (miner_scores test_mg test_scores_unknown).getD i 0 = 0 :=
  C10_unknown_hotkey_skipped (by decide)

/-! ### P95 provider lemmas and claims C6, C7 -/

theorem dictGet_dictSet_self {α β : Type} [DecidableEq α] (l : List (α × β))
    (k : α) (v : β) : dictGet (dictSet l k v) k = some v := by
  unfold dictSet
  rw [dictGet_append]
  simp [dictGet]

/-- A scope already cached in `current_percentiles` is answered from the
cache, leaving the state untouched and fetching nothing. -/
theorem get_effective_p95_cached {env : P95Env} {scope : String}
    {st : ProviderState} {q : Percentiles}
    (h : dictGet st.current_percentiles scope = some q) :
    get_effective_p95 env scope st = (q, st, []) := by
  unfold get_effective_p95
  rw [h]

/-- **C6.** For every scope, a second `get_effective_p95` call within the
same iteration (no `update_percentiles` in between) returns exactly the
value cached under the scope key by the first call, with no state change
and no recomputation (no further fetch). -/
theorem C6_get_effective_p95_idempotent (env : P95Env) (scope : String)
    (st : ProviderState) :
    dictGet (get_effective_p95 env scope st).2.1.current_percentiles scope =
      some (get_effective_p95 env scope st).1 ∧
    get_effective_p95 env scope (get_effective_p95 env scope st).2.1 =
      ((get_effective_p95 env scope st).1, (get_effective_p95 env scope st).2.1, []) := by
  have hcache : dictGet (get_effective_p95 env scope st).2.1.current_percentiles scope =
      some (get_effective_p95 env scope st).1 := by
    unfold get_effective_p95
    cases hd : dictGet st.current_percentiles scope with
    | some p =>
      dsimp only
      exact hd
    | none =>
      dsimp only
      cases hmode : (env.get_p95_config scope).mode with
      | MANUAL =>
        dsimp only
        exact dictGet_dictSet_self _ _ _
      | AUTO =>
        dsimp only
        cases hc : dictGet st.miner_stats_cache
            ((dictGet st.mech_scope_to_campaign_scope scope).getD scope) with
        | some l =>
          dsimp only
          exact dictGet_dictSet_self _ _ _
        | none =>
          dsimp only
          exact dictGet_dictSet_self _ _ _
  exact ⟨hcache, get_effective_p95_cached hcache⟩

/-- **C7.** In MANUAL (Fixed) mode, `get_effective_p95` returns exactly
the configured manual ceilings, performs no miner-stats fetch, and its
result and state do not depend on the miner-stats source or the dynamic
flooring flag at all. -/
theorem C7_manual_mode_ignores_stats (env env2 : P95Env) (scope : String)
    (st : ProviderState)
    (hfresh : dictGet st.current_percentiles scope = none)
    (hmode : (env.get_p95_config scope).mode = P95Mode.MANUAL)
    (hcfg : env2.get_p95_config = env.get_p95_config) :
    (get_effective_p95 env scope st).1 =
      Percentiles.mk (((env.get_p95_config scope).manual_p95_sales).getD 0)
        (((env.get_p95_config scope).manual_p95_revenue_usd).getD 0) ∧
    (get_effective_p95 env scope st).2.2 = [] ∧
    get_effective_p95 env2 scope st = get_effective_p95 env scope st := by
  have hbody : ∀ e : P95Env, e.get_p95_config = env.get_p95_config →
      get_effective_p95 e scope st =
      (Percentiles.mk (((env.get_p95_config scope).manual_p95_sales).getD 0)
          (((env.get_p95_config scope).manual_p95_revenue_usd).getD 0),
        { st with current_percentiles := dictSet st.current_percentiles scope (Percentiles.mk (((env.get_p95_config scope).manual_p95_sales).getD 0) (((env.get_p95_config scope).manual_p95_revenue_usd).getD 0)) },
        []) := by
    intro e he
    unfold get_effective_p95
    rw [hfresh, he]
    dsimp only
    rw [hmode]
  refine ⟨?_, ?_, ?_⟩
  · rw [hbody env rfl]
  · rw [hbody env rfl]
  · rw [hbody env rfl, hbody env2 hcfg]

/-- Witness for C7: the MANUAL-mode fixture environment against a fresh
state; swapping in a non-trivial stats source and flooring flag changes
nothing. -/
theorem C7_manual_mode_ignores_stats_witness :
    (get_effective_p95 test_p95_env "mech0" test_provider_state).1 =
      ⟨((test_p95_env.get_p95_config "mech0").manual_p95_sales).getD 0,
        ((test_p95_env.get_p95_config "mech0").manual_p95_revenue_usd).getD 0⟩ ∧
    (get_effective_p95 test_p95_env "mech0" test_provider_state).2.2 = [] ∧
    get_effective_p95 test_p95_env_with_stats "mech0" test_provider_state =
      get_effective_p95 test_p95_env "mech0" test_provider_state :=
  C7_manual_mode_ignores_stats test_p95_env test_p95_env_with_stats "mech0"
    test_provider_state rfl rfl rfl

/-! ### Claim C5: the epoch step never reaches `update_percentiles` -/

/-- **C5** (code-bug evidence): in an epoch where weight processing runs
(`last_update ≥ tempo`) with one campaign and a nonzero aggregate — the
nominal path — `_process_weights` raises `TypeError` at its
`publish(..., apply_burn=False)` call, because `publish` accepts no
`apply_burn` parameter; the exception propagates and
`update_percentiles` is invoked 0 times, not exactly once. -/
theorem C5_update_percentiles_skipped :
    (sync_and_process_updates 100 100
      (process_weights_run (test_ctx none) test_campaign_nosplit test_vec_unit)).1 = 0 ∧
    (sync_and_process_updates 100 100
      (process_weights_run (test_ctx none) test_campaign_nosplit test_vec_unit)).2 =
      some "TypeError: publish() got an unexpected keyword argument" := by
  have hu : emission_weight test_campaign_nosplit "campZ" = 1 := by
    have h1 := @emission_weight_uniform test_campaign_nosplit ⟨"campZ", 1, none⟩
      (by decide) (by decide) rfl
    simp only at h1
    rw [h1]
    norm_num [test_campaign_nosplit]
  have hagg : aggregated_scores test_campaign_nosplit test_vec_unit
      (test_ctx none).mg.uids.length = [1, 0, 0, 0, 0] := by
    have hstep : aggregated_scores test_campaign_nosplit test_vec_unit
        (test_ctx none).mg.uids.length =
        if emission_weight test_campaign_nosplit "campZ" ≤ 0 then
          List.replicate 5 0
        else (List.replicate 5 (0 : ℚ)).zipWith
          (fun a w => a + emission_weight test_campaign_nosplit "campZ" * w)
          (test_vec_unit "campZ") := rfl
    rw [hstep, hu, if_neg (by norm_num)]
    norm_num [test_vec_unit, List.replicate, List.zipWith]
  have hsum : (aggregated_scores test_campaign_nosplit test_vec_unit
      (test_ctx none).mg.uids.length).sum ≠ 0 := by
    rw [hagg]
    norm_num
  have hrun : process_weights_run (test_ctx none) test_campaign_nosplit test_vec_unit =
      Except.error "TypeError: publish() got an unexpected keyword argument" := by
    unfold process_weights_run
    rw [if_neg (by decide : ¬test_campaign_nosplit = []), if_neg hsum,
      if_neg (by decide :
        ¬kwargs_accepted publish_params process_weights_publish_kwargs = true)]
  rw [hrun]
  exact ⟨rfl, rfl⟩

/-! ### Claim C8: the retry loop of `_set_weights` -/

theorem set_weights_loop_spec (attempt : Nat → Bool × String) :
    ∀ (fuel i : Nat) (msg : String),
    (set_weights_loop attempt i msg fuel).2.2 ≤ fuel ∧
    ∀ j, j + 1 < (set_weights_loop attempt i msg fuel).2.2 →
      (attempt (i + j)).fst = false := by
  intro fuel
  induction fuel with
  | zero =>
    intro i msg
    refine ⟨le_refl 0, fun j hj => ?_⟩
    have h0 : (set_weights_loop attempt i msg 0).2.2 = 0 := rfl
    omega
  | succ f ih =>
    intro i msg
    unfold set_weights_loop
    cases hr : (attempt i).fst with
    | true =>
      simp only [hr, if_true]

      exact ⟨by omega, fun j hj => by omega⟩
    | false =>
      simp only [hr, Bool.false_eq_true, if_false]
      obtain ⟨ihc, ihf⟩ := ih (i + 1) (attempt i).snd
      refine ⟨by omega, ?_⟩
      intro j hj
      cases j with
      | zero => simpa using hr
      | succ j2 =>
        have := ihf j2 (by omega)
        have harg : i + 1 + j2 = i + (j2 + 1) := by omega
        rw [harg] at this
        exact this

/-- Counterexample to C8 as stated: with a registered hotkey and an
extrinsic that keeps failing, a single `_set_weights` call attempts the
extrinsic 5 times — the core retries internally, not at most once. -/
theorem C8_counterexample_retries :
    (set_weights_attempts true 5 (fun _ => (false, "failed"))).2.2 = 5 ∧
    1 < (set_weights_attempts true 5 (fun _ => (false, "failed"))).2.2 := by
  constructor <;> decide

/-- **C8 (amended).** `_set_weights` retries internally with bounded
backstop: within one call the extrinsic is attempted at most
`max_retries` times (5 by default), it stops at the first success (every
attempt before the last one returned failure), and an unregistered hotkey
makes no attempt at all. -/
theorem C8_amended_retry_bound (registered : Bool) (max_retries : Nat)
    (attempt : Nat → Bool × String) :
    (set_weights_attempts registered max_retries attempt).2.2 ≤ max_retries ∧
    (∀ j, j + 1 < (set_weights_attempts registered max_retries attempt).2.2 →
      (attempt j).fst = false) ∧
    (registered = false →
      (set_weights_attempts registered max_retries attempt).2.2 = 0) := by
  cases registered with
  | false => exact ⟨by simp [set_weights_attempts], fun j hj => by
      simp [set_weights_attempts] at hj, fun _ => rfl⟩
  | true =>
    obtain ⟨hc, hf⟩ := set_weights_loop_spec attempt max_retries 0
      "No attempt made. Perhaps it is too soon to commit weights!"
    refine ⟨hc, ?_, fun h => by cases h⟩
    intro j hj
    have := hf j hj
    rw [Nat.zero_add] at this
    exact this

/-- Witness for the amended C8: an extrinsic succeeding on the third
attempt is attempted at most 5 times, with all earlier attempts failed. -/
theorem C8_amended_retry_bound_witness :
    (set_weights_attempts true 5 (fun i => (decide (i = 2), "m"))).2.2 ≤ 5 ∧
    (∀ j, j + 1 < (set_weights_attempts true 5 (fun i => (decide (i = 2), "m"))).2.2 →
      ((fun i => (decide (i = 2), "m")) j).fst = false) ∧
    (true = false →
      (set_weights_attempts true 5 (fun i => (decide (i = 2), "m"))).2.2 = 0) :=
  C8_amended_retry_bound true 5 (fun i => (decide (i = 2), "m"))

/-! ### Claim C9: pending-only miners receive the minimum score -/

theorem score_many_ids (f : MinerWindowStats → ℚ × ℚ)
    (stats : List (String × MinerWindowStats)) :
    (score_many f stats).map ScoreResult.miner_id = stats.map Prod.fst := by
  unfold score_many
  rw [List.map_map]
  rfl

theorem append_pending_mono {hotkeys : List String} {m : ℚ} {r : ScoreResult} :
    ∀ (pending : List String) (acc : List ScoreResult × List String),
    r ∈ acc.fst → r ∈ (append_pending hotkeys m pending acc).fst := by
  intro pending
  induction pending with
  | nil => intro acc hr; exact hr
  | cons p rest ih =>
    intro acc hr
    by_cases hc : p ∉ acc.snd ∧ p ∈ hotkeys
    · have hstep : append_pending hotkeys m (p :: rest) acc =
          append_pending hotkeys m rest
            (acc.fst ++ [pending_entry m p], p :: acc.snd) := by
        unfold append_pending
        rw [List.foldl_cons, if_pos hc]
      rw [hstep]
      exact ih _ (List.mem_append_left _ hr)
    · have hstep : append_pending hotkeys m (p :: rest) acc =
          append_pending hotkeys m rest acc := by
        unfold append_pending
        rw [List.foldl_cons, if_neg hc]
      rw [hstep]
      exact ih _ hr

theorem append_pending_shape {hotkeys : List String} {m : ℚ} :
    ∀ (pending : List String) (acc : List ScoreResult × List String),
    ∀ r ∈ (append_pending hotkeys m pending acc).fst,
    r ∈ acc.fst ∨ ∃ h2, h2 ∈ hotkeys ∧ h2 ∉ acc.snd ∧ r = pending_entry m h2 := by
  intro pending
  induction pending with
  | nil => intro acc r hr; exact Or.inl hr
  | cons p rest ih =>
    intro acc r hr
    by_cases hc : p ∉ acc.snd ∧ p ∈ hotkeys
    · have hstep : append_pending hotkeys m (p :: rest) acc =
          append_pending hotkeys m rest
            (acc.fst ++ [pending_entry m p], p :: acc.snd) := by
        unfold append_pending
        rw [List.foldl_cons, if_pos hc]
      rw [hstep] at hr
      rcases ih _ r hr with h1 | ⟨h2, hh2, hns, hre⟩
      · rcases List.mem_append.mp h1 with h3 | h3
        · exact Or.inl h3
        · refine Or.inr ⟨p, hc.2, hc.1, ?_⟩
          simpa using h3
      · refine Or.inr ⟨h2, hh2, ?_, hre⟩
        intro hmem
        exact hns (List.mem_cons_of_mem _ hmem)
    · have hstep : append_pending hotkeys m (p :: rest) acc =
          append_pending hotkeys m rest acc := by
        unfold append_pending
        rw [List.foldl_cons, if_neg hc]
      rw [hstep] at hr
      exact ih _ r hr

theorem append_pending_mem {hotkeys : List String} {m : ℚ} {h : String} :
    ∀ (pending : List String) (acc : List ScoreResult × List String),
    h ∈ pending → h ∈ hotkeys →
    (h ∉ acc.snd ∨ pending_entry m h ∈ acc.fst) →
    pending_entry m h ∈ (append_pending hotkeys m pending acc).fst := by
  intro pending
  induction pending with
  | nil => intro acc hp _ _; simp at hp
  | cons p rest ih =>
    intro acc hp hh hI
    by_cases hc : p ∉ acc.snd ∧ p ∈ hotkeys
    · have hstep : append_pending hotkeys m (p :: rest) acc =
          append_pending hotkeys m rest
            (acc.fst ++ [pending_entry m p], p :: acc.snd) := by
        unfold append_pending
        rw [List.foldl_cons, if_pos hc]
      rw [hstep]
      by_cases hph : p = h
      · subst hph
        exact append_pending_mono _ _ (List.mem_append_right _ (by simp))
      · rcases List.mem_cons.mp hp with he | he
        · exact absurd he.symm hph
        · refine ih _ he hh ?_
          rcases hI with h1 | h1
          · left
            intro hmem
            rcases List.mem_cons.mp hmem with h3 | h3
            · exact hph h3.symm
            · exact h1 h3
          · right
            exact List.mem_append_left _ h1
    · have hstep : append_pending hotkeys m (p :: rest) acc =
          append_pending hotkeys m rest acc := by
        unfold append_pending
        rw [List.foldl_cons, if_neg hc]
      rw [hstep]
      rcases List.mem_cons.mp hp with he | he
      · subst he
        have hin : h ∈ acc.snd := by
          by_contra hnot
          exact hc ⟨hnot, hh⟩
        rcases hI with h1 | h1
        · exact absurd hin h1
        · exact append_pending_mono _ _ h1
      · exact ih _ he hh hI

theorem getD_set_ne {α : Type} {l : List α} {idx i : Nat} (v d : α) (h : idx ≠ i) :
    (l.set idx v).getD i d = l.getD i d := by
  by_cases hi : i < l.length
  · rw [List.getD_eq_getElem _ d (by simpa using hi), List.getD_eq_getElem _ d hi]
    exact List.getElem_set_ne h _
  · rw [List.getD_eq_default _ d (by simp; omega), List.getD_eq_default _ d (by omega)]

theorem assign_pending_length (hotkeys : List String) (m : ℚ) :
    ∀ (pending : List String) (acc : List ScoreResult),
    (assign_pending hotkeys m pending acc).length = acc.length := by
  intro pending
  induction pending with
  | nil => intro acc; rfl
  | cons p rest ih =>
    intro acc
    by_cases hc : p ∈ hotkeys
    · cases hf : hotkeys.findIdx? (fun x => decide (x = p)) with
      | some idx =>
        have hstep : assign_pending hotkeys m (p :: rest) acc =
            assign_pending hotkeys m rest (acc.set idx (pending_entry m p)) := by
          unfold assign_pending
          rw [List.foldl_cons, if_pos hc, hf]
        rw [hstep, ih]
        simp
      | none =>
        have hstep : assign_pending hotkeys m (p :: rest) acc =
            assign_pending hotkeys m rest acc := by
          unfold assign_pending
          rw [List.foldl_cons, if_pos hc, hf]
        rw [hstep]
        exact ih acc
    · have hstep : assign_pending hotkeys m (p :: rest) acc =
          assign_pending hotkeys m rest acc := by
        unfold assign_pending
        rw [List.foldl_cons, if_neg hc]
      rw [hstep]
      exact ih acc

theorem assign_pending_getD_of_not_mem {hotkeys : List String} {m : ℚ} {i : Nat}
    (d : ScoreResult) :
    ∀ (pending : List String) (acc : List ScoreResult),
    hotkeys.getD i "" ∉ pending →
    (assign_pending hotkeys m pending acc).getD i d = acc.getD i d := by
  intro pending
  induction pending with
  | nil => intro acc _; rfl
  | cons p rest ih =>
    intro acc hni
    have hpne : hotkeys.getD i "" ≠ p := fun he => hni (he ▸ List.mem_cons_self p rest)
    have hrest : hotkeys.getD i "" ∉ rest := fun he => hni (List.mem_cons_of_mem _ he)
    by_cases hc : p ∈ hotkeys
    · cases hf : hotkeys.findIdx? (fun x => decide (x = p)) with
      | some idx =>
        have hstep : assign_pending hotkeys m (p :: rest) acc =
            assign_pending hotkeys m rest (acc.set idx (pending_entry m p)) := by
          unfold assign_pending
          rw [List.foldl_cons, if_pos hc, hf]
        have hspec := findIdx?_eq_some_getD "" hf
        have hne : idx ≠ i := by
          intro he
          exact hpne (by rw [← hspec.2, he])
        rw [hstep, ih _ hrest, getD_set_ne _ _ hne]
      | none =>
        have hstep : assign_pending hotkeys m (p :: rest) acc =
            assign_pending hotkeys m rest acc := by
          unfold assign_pending
          rw [List.foldl_cons, if_pos hc, hf]
        rw [hstep]
        exact ih _ hrest
    · have hstep : assign_pending hotkeys m (p :: rest) acc =
          assign_pending hotkeys m rest acc := by
        unfold assign_pending
        rw [List.foldl_cons, if_neg hc]
      rw [hstep]
      exact ih _ hrest

theorem assign_pending_getD_of_mem {hotkeys : List String} {m : ℚ} {h : String}
    {i : Nat} (d : ScoreResult) :
    ∀ (pending : List String) (acc : List ScoreResult),
    h ∈ pending → hotkeys.findIdx? (fun x => decide (x = h)) = some i →
    i < acc.length →
    (assign_pending hotkeys m pending acc).getD i d = pending_entry m h := by
  intro pending
  induction pending with
  | nil => intro acc hp _ _; simp at hp
  | cons p rest ih =>
    intro acc hp hf hi
    by_cases hph : p = h
    · subst hph
      have hspec := findIdx?_eq_some_getD "" hf
      have hc : p ∈ hotkeys := by
        rw [← hspec.2, List.getD_eq_getElem _ "" hspec.1]
        exact List.getElem_mem _
      have hstep : assign_pending hotkeys m (p :: rest) acc =
          assign_pending hotkeys m rest (acc.set i (pending_entry m p)) := by
        unfold assign_pending
        rw [List.foldl_cons, if_pos hc, hf]
      rw [hstep]
      by_cases hpr : p ∈ rest
      · exact ih _ hpr hf (by simpa using hi)
      · rw [assign_pending_getD_of_not_mem d rest _ (by rw [hspec.2]; exact hpr),
          List.getD_eq_getElem _ d (by simpa using hi)]
        exact List.getElem_set_self _
    · have hp2 : h ∈ rest := by
        rcases List.mem_cons.mp hp with he | he
        · exact absurd he.symm hph
        · exact he
      by_cases hc : p ∈ hotkeys
      · cases hf2 : hotkeys.findIdx? (fun x => decide (x = p)) with
        | some idx2 =>
          have hstep : assign_pending hotkeys m (p :: rest) acc =
              assign_pending hotkeys m rest (acc.set idx2 (pending_entry m p)) := by
            unfold assign_pending
            rw [List.foldl_cons, if_pos hc, hf2]
          have e1 := (findIdx?_eq_some_getD "" hf2).2
          have e2 := (findIdx?_eq_some_getD "" hf).2
          have hne : idx2 ≠ i := by
            intro he
            rw [he, e2] at e1
            exact hph e1.symm
          rw [hstep]
          exact ih _ hp2 hf (by simpa using hi)
        | none =>
          have hstep : assign_pending hotkeys m (p :: rest) acc =
              assign_pending hotkeys m rest acc := by
            unfold assign_pending
            rw [List.foldl_cons, if_pos hc, hf2]
          rw [hstep]
          exact ih _ hp2 hf hi
      · have hstep : assign_pending hotkeys m (p :: rest) acc =
            assign_pending hotkeys m rest acc := by
          unfold assign_pending
          rw [List.foldl_cons, if_neg hc]
        rw [hstep]
        exact ih _ hp2 hf hi

theorem findIdx?_getD_self {l : List String} (hnd : l.Nodup) {j : Nat}
    (hj : j < l.length) :
    l.findIdx? (fun x => decide (x = l.getD j "")) = some j := by
  apply List.findIdx?_eq_some_iff_getElem.mpr
  refine ⟨hj, ?_, ?_⟩
  · simp only [decide_eq_true_eq]
    exact (List.getD_eq_getElem l "" hj).symm
  · intro k hk
    simp only [decide_eq_true_eq, Bool.not_eq_true, decide_eq_false_iff_not]
    intro he
    rw [List.getD_eq_getElem l "" hj] at he
    exact absurd ((List.Nodup.getElem_inj_iff hnd).mp he) (by omega)

/-- **C9.** For every campaign, a hotkey returned by the pending-miners
source that is present in the metagraph and has no entry in the fetched
miner stats appears in `compute_scores_for_campaign`'s result with
`base = score = PENDING_MINER_MIN_SCORE` and `refund_multiplier = 1.0`
(every result entry for that hotkey is exactly that); and a miner that
already has a stats-based score is never overwritten by the pending-miner
minimum: all stats-based entries survive unchanged, and every result
entry for a stats-covered hotkey is a stats-based entry. -/
theorem C9_pending_miner_minimum {hotkeys : List String}
    {f : MinerWindowStats → ℚ × ℚ} {stats : List (String × MinerWindowStats)}
    {pending : List String} {m : ℚ} {h : String}
    (hnd : hotkeys.Nodup) (hp : h ∈ pending) (hm : h ∈ hotkeys)
    (hns : h ∉ stats.map Prod.fst) :
    (pending_entry m h ∈ compute_scores_for_campaign hotkeys f stats pending m ∧
      ∀ r ∈ compute_scores_for_campaign hotkeys f stats pending m,
        r.miner_id = h → r = pending_entry m h) ∧
    (∀ r ∈ score_many f stats,
      r ∈ compute_scores_for_campaign hotkeys f stats pending m) ∧
    (∀ r ∈ compute_scores_for_campaign hotkeys f stats pending m,
      r.miner_id ∈ stats.map Prod.fst → r ∈ score_many f stats) := by
  by_cases hst : stats = []
  · subst hst
    have hout : compute_scores_for_campaign hotkeys f [] pending m =
        assign_pending hotkeys m pending (hotkeys.map zero_score_entry) := by
      unfold compute_scores_for_campaign
      rw [if_pos rfl]
    have hex : ∃ x ∈ hotkeys, (fun y => decide (y = h)) x = true :=
      ⟨h, hm, by simp⟩
    have hfj := List.findIdx?_eq_some_of_exists hex
    have hspec := findIdx?_eq_some_getD "" hfj
    have hbase : (hotkeys.map zero_score_entry).length = hotkeys.length := by simp
    have hlen2 : (assign_pending hotkeys m pending
        (hotkeys.map zero_score_entry)).length = hotkeys.length := by
      rw [assign_pending_length]
      simp
    have hjd := @assign_pending_getD_of_mem hotkeys m h _ (zero_score_entry "") pending
      (hotkeys.map zero_score_entry) hp hfj (by rw [hbase]; exact hspec.1)
    refine ⟨⟨?_, ?_⟩, ?_, ?_⟩
    · rw [hout]
      rw [List.getD_eq_getElem _ _ (by rw [hlen2]; exact hspec.1)] at hjd
      rw [← hjd]
      exact List.getElem_mem _
    · intro r hr hid
      rw [hout] at hr
      rcases List.getElem_of_mem hr with ⟨k, hk, hkr⟩
      have hkh : k < hotkeys.length := by rw [← hlen2]; exact hk
      by_cases hkp : hotkeys.getD k "" ∈ pending
      · have hkd := @assign_pending_getD_of_mem hotkeys m (hotkeys.getD k "") k
          (zero_score_entry "") pending (hotkeys.map zero_score_entry) hkp
          (findIdx?_getD_self hnd hkh) (by rw [hbase]; exact hkh)
        rw [List.getD_eq_getElem _ _ hk, hkr] at hkd
        have hkeq : hotkeys.getD k "" = h := by rw [← hid, hkd]; rfl
        rw [hkd, hkeq]
      · have hkd := @assign_pending_getD_of_not_mem hotkeys m k (zero_score_entry "")
          pending (hotkeys.map zero_score_entry) hkp
        rw [List.getD_eq_getElem _ _ hk, hkr] at hkd
        have hbd : (hotkeys.map zero_score_entry).getD k (zero_score_entry "") =
            zero_score_entry (hotkeys.getD k "") := by
          rw [List.getD_eq_getElem _ _ (by rw [hbase]; exact hkh), List.getElem_map,
            List.getD_eq_getElem _ _ hkh]
        rw [hbd] at hkd
        exfalso
        apply hkp
        have hkeq : hotkeys.getD k "" = h := by rw [← hid, hkd]; rfl
        rw [hkeq]
        exact hp
    · intro r hr
      simp [score_many] at hr
    · intro r _ hmem
      simp at hmem
  · have hout : compute_scores_for_campaign hotkeys f stats pending m =
        (append_pending hotkeys m pending
          (score_many f stats, (score_many f stats).map ScoreResult.miner_id)).fst := by
      unfold compute_scores_for_campaign
      rw [if_neg hst]
    have hids : (score_many f stats).map ScoreResult.miner_id = stats.map Prod.fst :=
      score_many_ids f stats
    refine ⟨⟨?_, ?_⟩, ?_, ?_⟩
    · rw [hout]
      exact append_pending_mem pending _ hp hm (Or.inl (by rw [hids]; exact hns))
    · intro r hr hid
      rw [hout] at hr
      rcases append_pending_shape pending _ r hr with h1 | ⟨h2, _, _, hre⟩
      · exfalso
        apply hns
        rw [← hids, ← hid]
        exact List.mem_map_of_mem ScoreResult.miner_id h1
      · have hh2 : h2 = h := by rw [← hid, hre]; rfl
        rw [hre, hh2]
    · intro r hr
      rw [hout]
      exact append_pending_mono pending _ hr
    · intro r hr hmem
      rw [hout] at hr
      rcases append_pending_shape pending _ r hr with h1 | ⟨h2, _, hns2, hre⟩
      · exact h1
      · exfalso
        apply hns2
        rw [hids]
        have hr2 : r.miner_id = h2 := by rw [hre]; rfl
        rw [← hr2]
        exact hmem

/-- Witness for C9: the fixture metagraph, one stats entry for MINER1, and
pending miners MINER2 and MINER3; MINER2 gets exactly the minimum entry
while MINER1's stats-based entry survives unchanged. -/
theorem C9_pending_miner_minimum_witness :
    (pending_entry (1/1000) "MINER2" ∈ compute_scores_for_campaign test_mg.hotkeys
        (fun _ => (1, 1)) [("MINER1", ⟨3, 10, 0⟩)] ["MINER2", "MINER3"] (1/1000) ∧
      ∀ r ∈ compute_scores_for_campaign test_mg.hotkeys (fun _ => (1, 1))
          [("MINER1", ⟨3, 10, 0⟩)] ["MINER2", "MINER3"] (1/1000),
        r.miner_id = "MINER2" → r = pending_entry (1/1000) "MINER2") ∧
    (∀ r ∈ score_many (fun _ => (1, 1)) [("MINER1", ⟨3, 10, 0⟩)],
      r ∈ compute_scores_for_campaign test_mg.hotkeys (fun _ => (1, 1))
        [("MINER1", ⟨3, 10, 0⟩)] ["MINER2", "MINER3"] (1/1000)) ∧
    (∀ r ∈ compute_scores_for_campaign test_mg.hotkeys (fun _ => (1, 1))
        [("MINER1", ⟨3, 10, 0⟩)] ["MINER2", "MINER3"] (1/1000),
      r.miner_id ∈ ([("MINER1", (⟨3, 10, 0⟩ : MinerWindowStats))].map Prod.fst) →
      r ∈ score_many (fun _ => (1, 1)) [("MINER1", ⟨3, 10, 0⟩)]) :=
  C9_pending_miner_minimum (by decide) (by decide) (by decide) (by decide)

end BitAds
